import Mathlib

/-!
Verification development for the testflow-ai flow-execution engine
(`src/executor.ts`): a shallow embedding of its JSON-like data model,
the dot-path extractor `extractValue`, the `${...}` interpolator
`interpolate`, the assertion engine `evaluateAssertion`, the poller
`poll`, the recursive resolver `resolveVariables`, and the flow
orchestration `executeFlow`, together with theorems settling the
specification's claims about them.
-/

namespace Testflow

/-- A JavaScript runtime value of the JSON-like fragment the executor
manipulates: `undef` is JavaScript `undefined` (distinct from `null`);
objects are insertion-ordered key/value lists, as JavaScript objects are. -/
inductive JVal where
  | undef : JVal
  | null : JVal
  | bool : Bool → JVal
  | num : Int → JVal
  | str : String → JVal
  | arr : List JVal → JVal
  | obj : List (String × JVal) → JVal
  deriving Repr

mutual

/-- Decidable equality for `JVal` (the derive handler does not support
this nested inductive, so it is spelled out). -/
def JVal.decEq : (a b : JVal) → Decidable (a = b)
  | .undef, .undef => isTrue rfl
  | .null, .null => isTrue rfl
  | .bool x, .bool y =>
      match inferInstanceAs (Decidable (x = y)) with
      | isTrue h => isTrue (by rw [h])
      | isFalse h => isFalse (by intro hc; cases hc; exact h rfl)
  | .num x, .num y =>
      match inferInstanceAs (Decidable (x = y)) with
      | isTrue h => isTrue (by rw [h])
      | isFalse h => isFalse (by intro hc; cases hc; exact h rfl)
  | .str x, .str y =>
      match inferInstanceAs (Decidable (x = y)) with
      | isTrue h => isTrue (by rw [h])
      | isFalse h => isFalse (by intro hc; cases hc; exact h rfl)
  | .arr xs, .arr ys =>
      match JVal.decEqList xs ys with
      | isTrue h => isTrue (by rw [h])
      | isFalse h => isFalse (by intro hc; cases hc; exact h rfl)
  | .obj xs, .obj ys =>
      match JVal.decEqFields xs ys with
      | isTrue h => isTrue (by rw [h])
      | isFalse h => isFalse (by intro hc; cases hc; exact h rfl)
  | .undef, .null | .undef, .bool _ | .undef, .num _ | .undef, .str _
  | .undef, .arr _ | .undef, .obj _ => isFalse (by intro h; cases h)
  | .null, .undef | .null, .bool _ | .null, .num _ | .null, .str _
  | .null, .arr _ | .null, .obj _ => isFalse (by intro h; cases h)
  | .bool _, .undef | .bool _, .null | .bool _, .num _ | .bool _, .str _
  | .bool _, .arr _ | .bool _, .obj _ => isFalse (by intro h; cases h)
  | .num _, .undef | .num _, .null | .num _, .bool _ | .num _, .str _
  | .num _, .arr _ | .num _, .obj _ => isFalse (by intro h; cases h)
  | .str _, .undef | .str _, .null | .str _, .bool _ | .str _, .num _
  | .str _, .arr _ | .str _, .obj _ => isFalse (by intro h; cases h)
  | .arr _, .undef | .arr _, .null | .arr _, .bool _ | .arr _, .num _
  | .arr _, .str _ | .arr _, .obj _ => isFalse (by intro h; cases h)
  | .obj _, .undef | .obj _, .null | .obj _, .bool _ | .obj _, .num _
  | .obj _, .str _ | .obj _, .arr _ => isFalse (by intro h; cases h)

/-- Decidable equality for lists of `JVal`. -/
def JVal.decEqList : (xs ys : List JVal) → Decidable (xs = ys)
  | [], [] => isTrue rfl
  | [], _ :: _ => isFalse (by intro h; cases h)
  | _ :: _, [] => isFalse (by intro h; cases h)
  | x :: xs, y :: ys =>
      match JVal.decEq x y, JVal.decEqList xs ys with
      | isTrue h1, isTrue h2 => isTrue (by rw [h1, h2])
      | isFalse h1, _ => isFalse (by intro hc; cases hc; exact h1 rfl)
      | _, isFalse h2 => isFalse (by intro hc; cases hc; exact h2 rfl)

/-- Decidable equality for key/value field lists. -/
def JVal.decEqFields : (xs ys : List (String × JVal)) → Decidable (xs = ys)
  | [], [] => isTrue rfl
  | [], _ :: _ => isFalse (by intro h; cases h)
  | _ :: _, [] => isFalse (by intro h; cases h)
  | (k, v) :: xs, (l, w) :: ys =>
      match inferInstanceAs (Decidable (k = l)), JVal.decEq v w, JVal.decEqFields xs ys with
      | isTrue h0, isTrue h1, isTrue h2 => isTrue (by rw [h0, h1, h2])
      | isFalse h0, _, _ => isFalse (by intro hc; cases hc; exact h0 rfl)
      | _, isFalse h1, _ => isFalse (by intro hc; cases hc; exact h1 rfl)
      | _, _, isFalse h2 => isFalse (by intro hc; cases hc; exact h2 rfl)

end

instance : DecidableEq JVal := JVal.decEq

namespace JVal

/-- `typeof v === 'string'`. -/
def isStr : JVal → Bool
  | .str _ => true
  | _ => false

/-- `typeof v === 'number'`. -/
def isNum : JVal → Bool
  | .num _ => true
  | _ => false

/-- `Array.isArray(v)`. -/
def isArr : JVal → Bool
  | .arr _ => true
  | _ => false

/-- `typeof v === 'object' && v !== null` (arrays included, as in JavaScript). -/
def isObjLike : JVal → Bool
  | .arr _ => true
  | .obj _ => true
  | _ => false

/-- JavaScript falsiness on this fragment: `undefined`, `null`, `false`,
`0` and `""` are falsy (`NaN` does not arise in the integer model). -/
def falsy : JVal → Bool
  | .undef => true
  | .null => true
  | .bool b => !b
  | .num n => n == 0
  | .str s => s == ""
  | _ => false

/-- The string wrapped by a `str`, and `""` on every other constructor. -/
def getStr : JVal → String
  | .str s => s
  | _ => ""

end JVal

/-- A value is pure JSON when no `undefined` occurs anywhere inside it:
exactly the values JSON-serializable without loss. -/
def pureJson : JVal → Bool
  | .undef => false
  | .null => true
  | .bool _ => true
  | .num _ => true
  | .str _ => true
  | .arr xs => pureList xs
  | .obj kvs => pureFields kvs
where
  pureList : List JVal → Bool
    | [] => true
    | x :: xs => pureJson x && pureList xs
  pureFields : List (String × JVal) → Bool
    | [] => true
    | kv :: kvs => pureJson kv.2 && pureFields kvs

/-- Decimal digits of a natural number, most significant first, as
produced by JavaScript number-to-string conversion on integers. -/
def natDigitChars (n : Nat) : List Char :=
  if n = 0 then ['0'] else ((Nat.digits 10 n).map Nat.digitChar).reverse

/-- JavaScript decimal rendering of an integer (`String(n)`), as a
character list. -/
def numRepr (n : Int) : List Char :=
  if n < 0 then '-' :: natDigitChars n.natAbs else natDigitChars n.toNat

/-- JSON escaping of one character inside a quoted string, as performed
by the ECMAScript `JSON.stringify` QuoteJSONString step: quote and
backslash get two-character escapes, the named control characters get
their short escapes, the remaining control characters get `\u00XX`
(lowercase hex, as V8 emits), and every other character is emitted
verbatim. -/
def escChar (c : Char) : List Char :=
  if c = '"' then ['\\', '"']
  else if c = '\\' then ['\\', '\\']
  else if c = '\x08' then ['\\', 'b']
  else if c = '\x0c' then ['\\', 'f']
  else if c = '\n' then ['\\', 'n']
  else if c = '\r' then ['\\', 'r']
  else if c = '\t' then ['\\', 't']
  else if c.toNat < 32 then
    ['\\', 'u', '0', '0', Nat.digitChar (c.toNat / 16), Nat.digitChar (c.toNat % 16)]
  else [c]

/-- A JSON string literal: opening quote, escaped body, closing quote. -/
def quoteChars (s : List Char) : List Char :=
  '"' :: s.flatMap escChar ++ ['"']

/-- Comma-join of pre-serialized pieces. -/
def joinComma : List (List Char) → List Char
  | [] => []
  | [a] => a
  | a :: rest => a ++ ',' :: joinComma rest

mutual

/-- Serialization of one value by the ECMAScript `JSON.stringify`
builtin used throughout the executor, as a character list. The `undef`
equation is the array-position rule (`undefined` inside an array
serializes as `null`); a top-level `undefined` is cut off earlier by
`jsonStringify`, and `undefined`-valued object properties are dropped
by `serFields`. -/
def serJson : JVal → List Char
  | .undef => ['n', 'u', 'l', 'l']
  | .null => ['n', 'u', 'l', 'l']
  | .bool b => if b then ['t', 'r', 'u', 'e'] else ['f', 'a', 'l', 's', 'e']
  | .num n => numRepr n
  | .str s => quoteChars s.data
  | .arr xs => '[' :: joinComma (serItems xs) ++ [']']
  | .obj kvs => '\x7b' :: joinComma (serFields kvs) ++ ['\x7d']

/-- Serialized array elements, in order. -/
def serItems : List JVal → List (List Char)
  | [] => []
  | x :: xs => serJson x :: serItems xs

/-- Serialized object members, in insertion order, dropping properties
whose value is `undefined` exactly as `JSON.stringify` does. -/
def serFields : List (String × JVal) → List (List Char)
  | [] => []
  | (k, v) :: kvs =>
      if v = .undef then serFields kvs
      else (quoteChars k.data ++ ':' :: serJson v) :: serFields kvs

end

/-- `JSON.stringify(v)`: JavaScript `undefined` at the top level (no
string is produced), the serialized text otherwise. -/
def jsonStringify : JVal → Option String
  | .undef => none
  | v => some (String.mk (serJson v))

mutual

/-- The ECMAScript `String(v)` coercion on this fragment: primitives
print themselves, arrays print as their comma-joined elements (with
`null`/`undefined` elements printing as the empty string, per
`Array.prototype.join`), and plain objects print as
`"[object Object]"`. -/
def jsToString : JVal → String
  | .undef => "undefined"
  | .null => "null"
  | .bool b => if b then "true" else "false"
  | .num n => String.mk (numRepr n)
  | .str s => s
  | .arr xs => String.intercalate "," (jsArrayItems xs)
  | .obj _ => "[object Object]"

/-- Element texts used by `Array.prototype.join`. -/
def jsArrayItems : List JVal → List String
  | [] => []
  | x :: xs =>
      (if x = .undef ∨ x = .null then "" else jsToString x) :: jsArrayItems xs

end

-- -- Path Resolver (`extractValue`) --

/-- The character class of the regex `\w` (ASCII letters, digits,
underscore). -/
def isWordChar (c : Char) : Bool :=
  c.isAlpha || c.isDigit || c = '_'

/-- The character class of the regex `\d`. -/
def isDigitChar (c : Char) : Bool :=
  c.isDigit

/-- `parseInt(ds, 10)` on a nonempty all-digit string. -/
def digitsToNat (ds : List Char) : Nat :=
  ds.foldl (fun a c => 10 * a + (c.toNat - '0'.toNat)) 0

/-- `part.match(/^(\w+)\[(\d+)\]$/)` from `extractValue`: an identifier
followed by one bracketed decimal index, anchored on both sides;
returns the identifier and the `parseInt`-converted index. -/
def parseArraySeg (part : String) : Option (String × Nat) :=
  let cs := part.data
  let w := cs.takeWhile isWordChar
  let r := cs.dropWhile isWordChar
  if w = [] then none
  else match r with
    | '[' :: r1 =>
        let ds := r1.takeWhile isDigitChar
        let r2 := r1.dropWhile isDigitChar
        if ds = [] then none
        else match r2 with
          | [']'] => some (String.mk w, digitsToNat ds)
          | _ => none
    | _ => none

/-- JS numeric-string canonicity: the key `k` addresses index `n` of an
array or string exactly when `k` is the canonical decimal form of `n`:
nonempty, digits only, and no leading zero except for `"0"` itself (so
`"01"` or `"+1"` address nothing, as in JavaScript). -/
def canonIndex (k : String) : Option Nat :=
  if k.data ≠ [] ∧ k.data.all isDigitChar ∧ (k.data = ['0'] ∨ k.data.head? ≠ some '0') then
    some (digitsToNat k.data)
  else none

/-- The JavaScript member access `cur[k]` performed by `extractValue`'s
non-indexed branch, on the data fragment: object lookup is by key in
insertion order; arrays expose `length` and their canonical indices;
string primitives box and expose `length` and one-character strings at
canonical indices; every other base value has no data properties.
Inherited function-valued properties (`toString` and friends) are not
JSON data and are outside the model. -/
def propGet : JVal → String → JVal
  | .obj kvs, k =>
      match kvs.find? (fun kv => kv.1 == k) with
      | some kv => kv.2
      | none => .undef
  | .arr xs, k =>
      if k = "length" then .num (xs.length : Int)
      else
        match canonIndex k with
        | some n => match xs.get? n with | some v => v | none => .undef
        | none => .undef
  | .str s, k =>
      if k = "length" then .num (s.length : Int)
      else
        match canonIndex k with
        | some n =>
            match s.data.get? n with
            | some c => .str (String.mk [c])
            | none => .undef
        | none => .undef
  | _, _ => (.undef)

/-- The segment loop of `extractValue`: stop with `undefined` as soon
as the current value is `null`/`undefined`; an indexed segment looks up
the identifier and then requires an array; a plain segment is a member
access. -/
def extractSteps : JVal → List String → JVal
  | cur, [] => cur
  | cur, part :: rest =>
      if cur = .null ∨ cur = .undef then .undef
      else
        match parseArraySeg part with
        | some (name, idx) =>
            match propGet cur name with
            | .arr xs =>
                extractSteps (match xs.get? idx with | some v => v | none => .undef) rest
            | _ => .undef
        | none => extractSteps (propGet cur part) rest

/-- `path.split('.')` of ECMAScript on the one-character separator
`'.'`: the list of (possibly empty) chunks between dots; the empty
string yields `[""]`, exactly as in JavaScript. -/
def splitDots : List Char → List (List Char)
  | [] => [[]]
  | c :: rest =>
      if c = '.' then [] :: splitDots rest
      else
        match splitDots rest with
        | seg :: segs => (c :: seg) :: segs
        | [] => [[c]]

/-- `extractValue(obj, path)` from `src/executor.ts`: dot-notation
extraction with array indices. -/
def extractValue (o : JVal) (path : String) : JVal :=
  extractSteps o ((splitDots path.data).map String.mk)

/-- Whether `s` starts with `pat`. -/
def startsWithChars : List Char → List Char → Bool
  | _, [] => true
  | [], _ :: _ => false
  | c :: cs, d :: ds => c == d && startsWithChars cs ds

/-- Whether `pat` occurs contiguously anywhere in `s`. -/
def containsSub : List Char → List Char → Bool
  | s, pat =>
      startsWithChars s pat ||
        match s with
        | [] => false
        | _ :: t => containsSub t pat

/-- `String.prototype.includes`: substring containment. -/
def strIncludes (s pat : String) : Bool :=
  containsSub s.data pat.data

/-- The SameValueZero comparison used by `Array.prototype.includes`, on
the values that actually flow into the executor's `contains` branch:
the array comes from a parsed HTTP response and the expected value from
a parsed flow file, so an object or array operand is always a distinct
allocation from every array element and reference equality never holds;
primitives compare by value (the integer model has no `NaN`/`-0`). -/
def sameValueZero (x v : JVal) : Bool :=
  if x.isObjLike || v.isObjLike then false else x == v

-- -- Assertion Engine (`evaluateAssertion`) --

/-- The closed operator enumeration of `AssertionDefinition.operator`
(10 values; `exists`, `notExists` and `matches` carry an `Op` suffix
because those words are reserved in Lean). -/
inductive AssertOp where
  | equals
  | notEquals
  | contains
  | notContains
  | existsOp
  | notExistsOp
  | greaterThan
  | lessThan
  | matchesOp
  | aiEvaluate
  deriving DecidableEq, Repr

/-- One declarative assertion (`AssertionDefinition` in
`src/types.ts`); an absent `value` is JavaScript `undefined`, and
`message` is the optional caller-supplied override. -/
structure AssertionDefinition where
  path : String
  operator : AssertOp
  value : JVal := .undef
  message : Option String := none
  deriving DecidableEq, Repr

/-- The verdict record (`AssertionResult` in `src/types.ts`). -/
structure AssertionResult where
  assertion : AssertionDefinition
  success : Bool
  actual : JVal
  message : String
  deriving DecidableEq, Repr

/-- The ECMAScript `RegExp` facility consumed by the `matches` branch:
`compile p` is `some test` when `new RegExp(p)` constructs successfully
and `none` when it throws a `SyntaxError` (as it does, for example, on
the pattern `"("` — "Unterminated group"). The executor's source does
not implement regular expressions, so the engine is a parameter. -/
structure RegExpSem where
  compile : String → Option (String → Bool)

/-- How a `JSON.stringify` result renders inside a template literal:
the text itself, or the word `undefined`. -/
def displayJson (v : JVal) : String :=
  match jsonStringify v with
  | some s => s
  | none => "undefined"

/-- `assertion.message || message`: the override applies whenever the
caller-supplied message is truthy (present and nonempty). -/
def overrideMsg (a : AssertionDefinition) (computed : String) : String :=
  match a.message with
  | some m => if m = "" then computed else m
  | none => computed

/-- The ECMAScript ToNumber coercion applied by the relational
comparison `actual > (assertion.value as number)`, restricted to the
integer fragment: `none` models `NaN` (every comparison against it is
false). A trimmed string of an optionally signed decimal integer
parses; other strings — including non-integer decimals, which are
outside this integer model — coerce to `NaN`; arrays and objects go
through their `String(...)` form first. -/
def parseNumeric (s : String) : Option Int :=
  let t := s.trim
  if t = "" then some 0
  else
    match t.data with
    | '-' :: ds => if ds ≠ [] ∧ ds.all isDigitChar then some (-(digitsToNat ds : Int)) else none
    | '+' :: ds => if ds ≠ [] ∧ ds.all isDigitChar then some ((digitsToNat ds : Int)) else none
    | ds => if ds.all isDigitChar then some ((digitsToNat ds : Int)) else none

/-- `Number(v)` on the fragment (see `parseNumeric`). -/
def toNumber : JVal → Option Int
  | .undef => none
  | .null => some 0
  | .bool b => some (if b then 1 else 0)
  | .num n => some n
  | .str s => parseNumeric s
  | .arr xs => parseNumeric (jsToString (.arr xs))
  | .obj kvs => parseNumeric (jsToString (.obj kvs))

/-- `evaluateAssertion(assertion, actual)` from `src/executor.ts`,
with the external `RegExp` engine made explicit. The function is total
except where the source itself can throw: the `matches` branch calls
`new RegExp(assertion.value)` whenever the actual value and the pattern
are both strings, and an invalid pattern raises a `SyntaxError`, which
the embedding surfaces as `Except.error`. Every other branch computes
a Boolean `success` and a default message, with a truthy
caller-supplied `assertion.message` overriding the computed one. -/
def evaluateAssertion (sem : RegExpSem) (a : AssertionDefinition) (actual : JVal) :
    Except String AssertionResult :=
  match a.operator with
  | .equals =>
      let success := jsonStringify actual == jsonStringify a.value
      let message :=
        if success then a.path ++ " equals " ++ displayJson a.value
        else
          "Expected " ++ a.path ++ " to equal " ++ displayJson a.value ++
            ", got " ++ displayJson actual
      .ok ⟨a, success, actual, overrideMsg a message⟩
  | .notEquals =>
      let success := !(jsonStringify actual == jsonStringify a.value)
      let message :=
        if success then a.path ++ " does not equal " ++ displayJson a.value
        else "Expected " ++ a.path ++ " to not equal " ++ displayJson a.value
      .ok ⟨a, success, actual, overrideMsg a message⟩
  | .contains =>
      let success :=
        match actual with
        | .str s => strIncludes s (jsToString a.value)
        | .arr xs => xs.any (fun x => sameValueZero x a.value)
        | _ => false
      let message :=
        if success then a.path ++ " contains " ++ displayJson a.value
        else "Expected " ++ a.path ++ " to contain " ++ displayJson a.value
      .ok ⟨a, success, actual, overrideMsg a message⟩
  | .notContains =>
      let success :=
        match actual with
        | .str s => !strIncludes s (jsToString a.value)
        | .arr xs => !xs.any (fun x => sameValueZero x a.value)
        | _ => true
      let message :=
        if success then a.path ++ " does not contain " ++ displayJson a.value
        else "Expected " ++ a.path ++ " to not contain " ++ displayJson a.value
      .ok ⟨a, success, actual, overrideMsg a message⟩
  | .existsOp =>
      let success := actual != .undef && actual != .null
      let message :=
        if success then a.path ++ " exists"
        else "Expected " ++ a.path ++ " to exist"
      .ok ⟨a, success, actual, overrideMsg a message⟩
  | .notExistsOp =>
      let success := actual == .undef || actual == .null
      let message :=
        if success then a.path ++ " does not exist"
        else "Expected " ++ a.path ++ " to not exist"
      .ok ⟨a, success, actual, overrideMsg a message⟩
  | .greaterThan =>
      let success :=
        match actual, toNumber a.value with
        | .num n, some m => m < n
        | _, _ => false
      let message :=
        if success then
          a.path ++ " (" ++ jsToString actual ++ ") > " ++ jsToString a.value
        else
          "Expected " ++ a.path ++ " to be > " ++ jsToString a.value ++
            ", got " ++ jsToString actual
      .ok ⟨a, success, actual, overrideMsg a message⟩
  | .lessThan =>
      let success :=
        match actual, toNumber a.value with
        | .num n, some m => n < m
        | _, _ => false
      let message :=
        if success then
          a.path ++ " (" ++ jsToString actual ++ ") < " ++ jsToString a.value
        else
          "Expected " ++ a.path ++ " to be < " ++ jsToString a.value ++
            ", got " ++ jsToString actual
      .ok ⟨a, success, actual, overrideMsg a message⟩
  | .matchesOp =>
      if actual.isStr && a.value.isStr then
        match sem.compile a.value.getStr with
        | some test =>
            let success := test actual.getStr
            let message :=
              if success then a.path ++ " matches " ++ jsToString a.value
              else "Expected " ++ a.path ++ " to match " ++ jsToString a.value
            .ok ⟨a, success, actual, overrideMsg a message⟩
        | none => .error ("SyntaxError: Invalid regular expression: " ++ a.value.getStr)
      else
        .ok ⟨a, false, actual,
          overrideMsg a ("Expected " ++ a.path ++ " to match " ++ jsToString a.value)⟩
  | .aiEvaluate =>
      .ok ⟨a, false, actual, overrideMsg a "AI evaluation requires async execution"⟩

/-- The `success` verdict of an evaluation, `none` when it threw. -/
def resultSuccess? : Except String AssertionResult → Option Bool
  | .ok r => some r.success
  | .error _ => none

/-- A concrete `RegExp` engine instance recording one ECMAScript fact
used by counterexamples: `new RegExp("(")` throws (`SyntaxError:
Unterminated group`); patterns other than `"("` are irrelevant here and
compile to a vacuous matcher. -/
def parenSem : RegExpSem :=
  ⟨fun p => if p = "(" then none else some (fun _ => false)⟩

-- -- Step Executor: choice of the actual value for an assertion --

/-- The actual-value selection in `FlowExecutor.executeStep`:
`a.path === 'httpStatus' || (a.path === 'status' && typeof a.value ===
'number') ? response.status : extractValue(response.data, a.path)`. -/
def assertionActual (a : AssertionDefinition) (status : Int) (body : JVal) : JVal :=
  if a.path == "httpStatus" || (a.path == "status" && a.value.isNum) then .num status
  else extractValue body a.path

-- -- Interpolator (`interpolate`) --

/-- When a `takeWhile` run is nonempty, the corresponding `dropWhile`
remainder is strictly shorter than the input. -/
theorem dropWhile_length_lt {p : Char → Bool} {l : List Char}
    (h : l.takeWhile p ≠ []) : (l.dropWhile p).length < l.length := by
  have hsplit : l.takeWhile p ++ l.dropWhile p = l := List.takeWhile_append_dropWhile p l
  have hlen : (l.takeWhile p).length + (l.dropWhile p).length = l.length := by
    rw [← List.length_append, hsplit]
  have hpos : 0 < (l.takeWhile p).length := List.length_pos.mpr h
  omega

/-- The optional group `(?:\[\d+\])?` of the interpolation token regex:
a bracketed nonempty digit run, matched greedily; returns the matched
characters (brackets included) and the rest. -/
def matchIdx : List Char → Option (List Char × List Char)
  | '[' :: cs =>
      if cs.takeWhile isDigitChar = [] then none
      else
        match cs.dropWhile isDigitChar with
        | ']' :: r1 => some ('[' :: cs.takeWhile isDigitChar ++ [']'], r1)
        | _ => none
  | _ => none

/-- Anatomy of a successful `matchIdx`: the matched text is a bracketed
nonempty digit run and, together with the rest, reassembles the input. -/
theorem matchIdx_parts {cs ix r1} (h : matchIdx cs = some (ix, r1)) :
    ∃ ds, ds ≠ [] ∧ ds.all isDigitChar ∧ ix = '[' :: ds ++ [']'] ∧ cs = ix ++ r1 := by
  unfold matchIdx at h
  split at h
  · rename_i cs1
    split at h
    · exact absurd h (by simp)
    · rename_i hne
      split at h
      · rename_i r1x heq
        injection h with h2
        injection h2 with ha hb
        subst hb
        refine ⟨cs1.takeWhile isDigitChar, hne, ?_, ha.symm, ?_⟩
        · have := List.all_takeWhile (p := isDigitChar) (l := cs1)
          exact this
        · have hsplit : cs1.takeWhile isDigitChar ++ cs1.dropWhile isDigitChar = cs1 :=
            List.takeWhile_append_dropWhile isDigitChar cs1
          rw [← ha]
          simp only [List.cons_append, List.append_assoc, List.singleton_append,
            List.nil_append]
          rw [← heq, hsplit]
      · exact absurd h (by simp)
  · exact absurd h (by simp)

/-- A successful `matchIdx` consumes at least the two brackets. -/
theorem matchIdx_length {cs ix r1} (h : matchIdx cs = some (ix, r1)) :
    r1.length < cs.length := by
  obtain ⟨ds, hne, _, hix, hcs⟩ := matchIdx_parts h
  have : cs.length = ix.length + r1.length := by rw [hcs]; simp
  have : 0 < ix.length := by rw [hix]; simp
  omega

/-- The greedy star `(?:\.\w+(?:\[\d+\])?)*` of the token regex: zero
or more groups, each a dot, a nonempty identifier run, and an optional
bracketed index; a dot not followed by an identifier character ends the
star without being consumed. Returns the matched characters and the
rest. Recursion is by structural fuel so the kernel can evaluate it;
each group consumes at least two characters, so `matchSegs` below can
afford fuel equal to the input length (`matchSegsGo_irrel`). -/
def matchSegsGo : Nat → List Char → List Char × List Char
  | 0, cs => ([], cs)
  | fuel + 1, cs =>
      match cs with
      | c :: cs1 =>
          if c = '.' then
            if cs1.takeWhile isWordChar = [] then ([], c :: cs1)
            else
              match matchIdx (cs1.dropWhile isWordChar) with
              | some (ix, r1) =>
                  match matchSegsGo fuel r1 with
                  | (t, r2) => ('.' :: cs1.takeWhile isWordChar ++ ix ++ t, r2)
              | none =>
                  match matchSegsGo fuel (cs1.dropWhile isWordChar) with
                  | (t, r2) => ('.' :: cs1.takeWhile isWordChar ++ t, r2)
          else ([], c :: cs1)
      | [] => ([], [])

/-- The greedy star with its canonical fuel. -/
def matchSegs (cs : List Char) : List Char × List Char :=
  matchSegsGo cs.length cs

/-- Any sufficient fuel computes the same star match: the fuel is a
structural-recursion device, not part of the semantics. -/
theorem matchSegsGo_irrel :
    ∀ (fuel fuel' : Nat) (cs : List Char), cs.length ≤ fuel → cs.length ≤ fuel' →
      matchSegsGo fuel cs = matchSegsGo fuel' cs := by
  intro fuel
  induction fuel with
  | zero =>
      intro fuel' cs h h'
      have : cs = [] := List.length_eq_zero.mp (Nat.le_zero.mp h)
      subst this
      cases fuel' with
      | zero => rfl
      | succ f => rfl
  | succ fuel ih =>
      intro fuel' cs h h'
      match cs with
      | [] =>
          cases fuel' with
          | zero => rfl
          | succ f => rfl
      | c :: cs1 =>
          cases fuel' with
          | zero => exact absurd h' (by simp)
          | succ f =>
              simp only [matchSegsGo]
              by_cases hc : c = '.'
              · rw [if_pos hc, if_pos hc]
                by_cases hw : cs1.takeWhile isWordChar = []
                · rw [if_pos hw, if_pos hw]
                · rw [if_neg hw, if_neg hw]
                  have hdlt : (cs1.dropWhile isWordChar).length < cs1.length :=
                    dropWhile_length_lt hw
                  simp only [List.length_cons] at h h'
                  rcases hmi : matchIdx (cs1.dropWhile isWordChar) with _ | ⟨ix, r1⟩
                  · dsimp only
                    rw [ih f (cs1.dropWhile isWordChar) (by omega) (by omega)]
                  · dsimp only
                    have hr1 : r1.length < (cs1.dropWhile isWordChar).length :=
                      matchIdx_length hmi
                    rw [ih f r1 (by omega) (by omega)]
              · rw [if_neg hc, if_neg hc]

/-- `matchSegsGo` splits its input, whatever the fuel. -/
theorem matchSegsGo_decomp :
    ∀ (fuel : Nat) (cs : List Char), cs = (matchSegsGo fuel cs).1 ++ (matchSegsGo fuel cs).2 := by
  intro fuel
  induction fuel with
  | zero => intro cs; rfl
  | succ fuel ih =>
      intro cs
      match cs with
      | [] => rfl
      | c :: cs1 =>
          simp only [matchSegsGo]
          by_cases hc : c = '.'
          · rw [if_pos hc]
            by_cases hw : cs1.takeWhile isWordChar = []
            · rw [if_pos hw]
              simp
            · rw [if_neg hw]
              have hsplit : cs1.takeWhile isWordChar ++ cs1.dropWhile isWordChar = cs1 :=
                List.takeWhile_append_dropWhile isWordChar cs1
              rcases hmi : matchIdx (cs1.dropWhile isWordChar) with _ | ⟨ix, r1⟩
              · dsimp only
                subst hc
                simp only [List.cons_append, List.append_assoc]
                rw [← ih (cs1.dropWhile isWordChar), hsplit]
              · dsimp only
                have hidx : cs1.dropWhile isWordChar = ix ++ r1 :=
                  (matchIdx_parts hmi).choose_spec.2.2.2
                subst hc
                simp only [List.cons_append, List.append_assoc]
                rw [← ih r1, ← hidx, hsplit]
          · rw [if_neg hc]
            simp

/-- `matchSegs` splits its input. -/
theorem matchSegs_decomp (cs : List Char) : cs = (matchSegs cs).1 ++ (matchSegs cs).2 :=
  matchSegsGo_decomp cs.length cs

/-- Requires the closing `\x7d` of the token: on `\x7d rest` the match
succeeds with captured path `p`, anything else fails. -/
def expectClose (p r : List Char) : Option (List Char × List Char) :=
  match r with
  | c :: rest => if c = '\x7d' then some (p, rest) else none
  | [] => none

/-- A successful `expectClose` says the rest began with `\x7d`. -/
theorem expectClose_some {p r q rest} (h : expectClose p r = some (q, rest)) :
    q = p ∧ r = '\x7d' :: rest := by
  match r with
  | [] => simp [expectClose] at h
  | c :: r1 =>
    simp only [expectClose] at h
    split at h
    · rename_i hc
      injection h with h2
      injection h2 with ha hb
      subst hc hb
      exact ⟨ha.symm, rfl⟩
    · exact absurd h (by simp)

/-- The token matcher of `interpolate`'s regex
`\$\{(\w+(?:\[\d+\])?(?:\.\w+(?:\[\d+\])?)*)\}`, applied just after a
`$` has been seen: expects `\x7b`, then the captured path (a nonempty
identifier run, an optional bracketed index, and a greedy star of
dot-segments), then `\x7d`. Returns the captured path text and the
input rest. Greedy matching without backtracking is faithful here: a
backtracked alternative always leaves the position on a character that
still cannot be the required `\x7d`. -/
def matchBrace (cs : List Char) : Option (List Char × List Char) :=
  match cs with
  | c :: cs1 =>
      if c = '\x7b' then
        if cs1.takeWhile isWordChar = [] then none
        else
          match matchIdx (cs1.dropWhile isWordChar) with
          | some (ix, r1) =>
              expectClose (cs1.takeWhile isWordChar ++ ix ++ (matchSegs r1).1) (matchSegs r1).2
          | none =>
              expectClose (cs1.takeWhile isWordChar ++ (matchSegs (cs1.dropWhile isWordChar)).1)
                ((matchSegs (cs1.dropWhile isWordChar)).2)
      else none
  | [] => none

/-- A successful `matchBrace` splits its input as `\x7b` path `\x7d`
rest. -/
theorem matchBrace_decomp {cs p rest} (h : matchBrace cs = some (p, rest)) :
    cs = '\x7b' :: p ++ '\x7d' :: rest := by
  match cs with
  | [] => simp [matchBrace] at h
  | c :: cs1 =>
    simp only [matchBrace] at h
    by_cases hc : c = '\x7b'
    · rw [if_pos hc] at h
      subst hc
      by_cases hw : cs1.takeWhile isWordChar = []
      · rw [if_pos hw] at h
        exact absurd h (by simp)
      · rw [if_neg hw] at h
        have hsplit : cs1.takeWhile isWordChar ++ cs1.dropWhile isWordChar = cs1 :=
          List.takeWhile_append_dropWhile isWordChar cs1
        rcases hmi : matchIdx (cs1.dropWhile isWordChar) with _ | ⟨ix, r1⟩
        · rw [hmi] at h
          obtain ⟨hq, hr⟩ := expectClose_some h
          have hsegd : cs1.dropWhile isWordChar =
              (matchSegs (cs1.dropWhile isWordChar)).1 ++ '\x7d' :: rest := by
            have := matchSegs_decomp (cs1.dropWhile isWordChar)
            rw [hr] at this
            exact this
          subst hq
          simp only [List.cons_append, List.append_assoc]
          rw [← hsegd, hsplit]
        · rw [hmi] at h
          obtain ⟨hq, hr⟩ := expectClose_some h
          have hidx : cs1.dropWhile isWordChar = ix ++ r1 :=
            (matchIdx_parts hmi).choose_spec.2.2.2
          have hsegd : r1 = (matchSegs r1).1 ++ '\x7d' :: rest := by
            have := matchSegs_decomp r1
            rw [hr] at this
            exact this
          subst hq
          simp only [List.cons_append, List.append_assoc]
          rw [← hsegd, ← hidx, hsplit]
    · rw [if_neg hc] at h
      exact absurd h (by simp)

/-- A successful `matchBrace` strictly consumes input. -/
theorem matchBrace_length {cs p rest} (h : matchBrace cs = some (p, rest)) :
    rest.length < cs.length := by
  have hd := matchBrace_decomp h
  have : cs.length = p.length + rest.length + 2 := by
    rw [hd]
    simp
    omega
  omega

/-- The text substituted for a resolved variable: structured values are
spliced as their `JSON.stringify` text, other values via `String(...)`
(the `undefined` case is handled one level up, in `replacement`). -/
def valueText (v : JVal) : String :=
  if v.isObjLike then String.mk (serJson v) else jsToString v

/-- The replacer callback of `interpolate`: resolve the captured path
against the variable bag with `extractValue`; an unresolved reference
reproduces the token text verbatim, a resolved one substitutes its
text form. -/
def replacement (vars : JVal) (p : List Char) : List Char :=
  match extractValue vars (String.mk p) with
  | .undef => '$' :: '\x7b' :: p ++ ['\x7d']
  | v => (valueText v).data

/-- The scan of `String.prototype.replace` with `interpolate`'s global
regex: matches are located left to right in the input itself, each
match is replaced by the replacer's output, and replacement text is
never rescanned (exactly the ECMAScript `replace` semantics — matching
happens on the original string). Since the pattern starts with a
literal `$`, attempting the token match at each `$` and copying every
other character verbatim is equivalent to the engine's scan. Recursion
is by structural fuel so the kernel can evaluate it; every step
consumes at least one character, so `interpolateCore` below can afford
fuel equal to the input length (`interpolateGo_irrel`). -/
def interpolateGo (vars : JVal) : Nat → List Char → List Char
  | 0, cs => cs
  | fuel + 1, cs =>
      match cs with
      | [] => []
      | c :: rest =>
          if c = '$' then
            match matchBrace rest with
            | some (p, after) => replacement vars p ++ interpolateGo vars fuel after
            | none => c :: interpolateGo vars fuel rest
          else c :: interpolateGo vars fuel rest

/-- The replacement scan with its canonical fuel. -/
def interpolateCore (vars : JVal) (cs : List Char) : List Char :=
  interpolateGo vars cs.length cs

/-- Any sufficient fuel computes the same scan. -/
theorem interpolateGo_irrel (vars : JVal) :
    ∀ (fuel fuel' : Nat) (cs : List Char), cs.length ≤ fuel → cs.length ≤ fuel' →
      interpolateGo vars fuel cs = interpolateGo vars fuel' cs := by
  intro fuel
  induction fuel with
  | zero =>
      intro fuel' cs h h'
      have : cs = [] := List.length_eq_zero.mp (Nat.le_zero.mp h)
      subst this
      cases fuel' with
      | zero => rfl
      | succ f => rfl
  | succ fuel ih =>
      intro fuel' cs h h'
      match cs with
      | [] =>
          cases fuel' with
          | zero => rfl
          | succ f => rfl
      | c :: rest =>
          cases fuel' with
          | zero => exact absurd h' (by simp)
          | succ f =>
              simp only [interpolateGo, List.length_cons] at h h' ⊢
              by_cases hc : c = '$'
              · rw [if_pos hc, if_pos hc]
                rcases hm : matchBrace rest with _ | ⟨p, after⟩
                · dsimp only
                  rw [ih f rest (by omega) (by omega)]
                · dsimp only
                  have hlt : after.length < rest.length := matchBrace_length hm
                  rw [ih f after (by omega) (by omega)]
              · rw [if_neg hc, if_neg hc]
                rw [ih f rest (by omega) (by omega)]

/-- `interpolate` on an (actual) string input. -/
def interpolateStr (s : String) (vars : JVal) : String :=
  String.mk (interpolateCore vars s.data)

/-- `interpolate(str, variables)` from `src/executor.ts`, on a dynamic
(possibly non-string) first argument as the exported function admits:
`if (!str || typeof str !== 'string') return str || '';` and otherwise
the token-replacement scan. -/
def interpolate (v : JVal) (vars : JVal) : JVal :=
  if v.falsy || !v.isStr then (if v.falsy then .str "" else v)
  else .str (interpolateStr v.getStr vars)

-- -- Poller (`FlowExecutor.poll`) --

/-- The four-operator condition language of `waitUntil`
(`WaitUntilConfig.operator`). -/
inductive PollOp where
  | equals
  | notEquals
  | existsOp
  | notExistsOp
  deriving DecidableEq, Repr

/-- `WaitUntilConfig` from `src/types.ts`; absent `timeout`/`interval`
fall back to 30000/2000 ms through `config.timeout || 30_000`. -/
structure WaitUntilConfig where
  path : String
  operator : PollOp
  value : JVal := .undef
  timeout : Option Nat := none
  interval : Option Nat := none
  deriving Repr

/-- An HTTP response as the executor consumes it (`response.status`,
`response.data`). -/
structure HttpResponse where
  status : Int
  data : JVal
  deriving DecidableEq, Repr

/-- `x || d` on an optional millisecond count: JavaScript `undefined`
and `0` are both falsy, so both select the default. -/
def orDefault : Option Nat → Nat → Nat
  | some v, d => if v = 0 then d else v
  | none, d => d

/-- One condition evaluation of the poll loop: extract
`config.path` from the response body and compare with the restricted
four-operator switch (structural-JSON comparison for equality). -/
def pollMet (cfg : WaitUntilConfig) (body : JVal) : Bool :=
  match cfg.operator with
  | .equals => jsonStringify (extractValue body cfg.path) == jsonStringify cfg.value
  | .notEquals => !(jsonStringify (extractValue body cfg.path) == jsonStringify cfg.value)
  | .existsOp => extractValue body cfg.path != .undef && extractValue body cfg.path != .null
  | .notExistsOp => extractValue body cfg.path == .undef || extractValue body cfg.path == .null

/-- The `while (Date.now() - waitStart < timeout)` loop of
`FlowExecutor.poll`, with time made explicit: each iteration that finds
the condition unmet sleeps `interval` ms and re-issues the request,
whose wall-clock latency is `latencies k` and whose outcome is
`resps k`. The loop in the source terminates because every iteration
advances real time by at least the (positive) interval; the embedding
carries structural fuel instead, and `poll` supplies `timeout + 1`
fuel, which lemma `pollLoop_spec` shows is never exhausted since each
iteration consumes at least one millisecond of the budget. -/
def pollLoop (cfg : WaitUntilConfig) (timeout interval : Nat) (latencies : Nat → Nat)
    (resps : Nat → HttpResponse) :
    Nat → Nat → Nat → HttpResponse → HttpResponse
  | 0, _, _, response => response
  | fuel + 1, k, elapsed, response =>
      if elapsed < timeout then
        if pollMet cfg response.data then response
        else
          pollLoop cfg timeout interval latencies resps fuel (k + 1)
            (elapsed + interval + latencies k) (resps k)
      else response

/-- `FlowExecutor.poll(config, resolved, url, body, initial)`: the
re-issued request is identical every time, so the transport is
abstracted into the latency and response streams. -/
def poll (cfg : WaitUntilConfig) (latencies : Nat → Nat) (resps : Nat → HttpResponse)
    (initial : HttpResponse) : HttpResponse :=
  pollLoop cfg (orDefault cfg.timeout 30000) (orDefault cfg.interval 2000) latencies resps
    (orDefault cfg.timeout 30000 + 1) 0 0 initial

/-- The k-th response the poll loop can observe: the initial response,
then the re-issued ones. -/
def observedResp (initial : HttpResponse) (resps : Nat → HttpResponse) : Nat → HttpResponse
  | 0 => initial
  | k + 1 => resps k

/-- Elapsed wall-clock time when the k-th observed response is in hand:
each re-issue costs one `interval` sleep plus that request's latency. -/
def elapsedAt (interval : Nat) (latencies : Nat → Nat) : Nat → Nat
  | 0 => 0
  | k + 1 => elapsedAt interval latencies k + interval + latencies k

-- -- Recursive structural interpolation (`resolveVariables`) --

/-- `String.prototype.trim`: strip leading and trailing whitespace. -/
def trimChars (cs : List Char) : List Char :=
  ((cs.dropWhile Char.isWhitespace).reverse.dropWhile Char.isWhitespace).reverse

/-- `result.trim().startsWith(c)` from `resolveVariables`. -/
def startsTrimmed (result : String) (c : Char) : Bool :=
  match trimChars result.data with
  | d :: _ => d = c
  | [] => false

mutual

/-- `FlowExecutor.resolveVariables(obj)` from `src/executor.ts`: a
string is interpolated against the variable bag and, when its trimmed
result starts with `\x7b` or `[`, fed to `JSON.parse` (the external
builtin, passed as `parse`), keeping the interpolated string on parse
failure; arrays and objects recurse element-wise; every other value
passes through. -/
def resolveVariables (parse : String → Option JVal) (vars : JVal) : JVal → JVal
  | .str s =>
      if startsTrimmed (interpolateStr s vars) '\x7b' ||
          startsTrimmed (interpolateStr s vars) '[' then
        match parse (interpolateStr s vars) with
        | some j => j
        | none => .str (interpolateStr s vars)
      else .str (interpolateStr s vars)
  | .arr xs => .arr (resolveItems parse vars xs)
  | .obj kvs => .obj (resolveProps parse vars kvs)
  | v => v

/-- `obj.map((item) => this.resolveVariables(item))`. -/
def resolveItems (parse : String → Option JVal) (vars : JVal) : List JVal → List JVal
  | [] => []
  | x :: xs => resolveVariables parse vars x :: resolveItems parse vars xs

/-- The `Object.entries` loop of `resolveVariables`. -/
def resolveProps (parse : String → Option JVal) (vars : JVal) :
    List (String × JVal) → List (String × JVal)
  | [] => []
  | (k, v) :: kvs => (k, resolveVariables parse vars v) :: resolveProps parse vars kvs

end

-- -- Flow Executor (`executeFlow`) --

/-- `RequestDefinition` from `src/types.ts` (the GraphQL section is
irrelevant to the claims settled here). -/
structure RequestDefinition where
  method : String
  url : String
  headers : List (String × String) := []
  body : JVal := .undef
  deriving Repr

/-- `CaptureDefinition` from `src/types.ts`. -/
structure CaptureDefinition where
  name : String
  path : String
  deriving Repr

/-- `TestStep` from `src/types.ts`. -/
structure TestStep where
  name : String
  request : RequestDefinition
  capture : List CaptureDefinition := []
  assertions : List AssertionDefinition := []
  waitUntil : Option WaitUntilConfig := none
  deriving Repr

/-- `TestFlow` from `src/types.ts`. -/
structure TestFlow where
  name : String
  steps : List TestStep
  deriving Repr

/-- `StepResult` from `src/types.ts`. -/
structure StepResult where
  step : TestStep
  success : Bool
  duration : Nat := 0
  captures : List (String × JVal) := []
  assertions : List AssertionResult := []
  error : Option String := none
  deriving Repr

/-- `FlowResult` from `src/types.ts`; the source's `variables` field is
spelled `varsBag` because `variables` is reserved in Lean. -/
structure FlowResult where
  flow : TestFlow
  success : Bool
  duration : Nat
  steps : List StepResult
  varsBag : JVal
  deriving Repr

/-- The `for` loop of `executeFlow`: run the steps in order against the
threaded variable bag, collect one result per step, and fold the
flow-level flag exactly as `if (!result.success) success = false`
does. `executeStep` performs network effects, so the step executor is
a parameter mapping a step and the current bag to its result and the
updated bag. -/
def runSteps (exec : TestStep → JVal → StepResult × JVal) :
    List TestStep → JVal → List StepResult × Bool × JVal
  | [], bag => ([], true, bag)
  | s :: ss, bag =>
      match exec s bag with
      | (r, bag1) =>
          match runSteps exec ss bag1 with
          | (rs, ok, bag2) => (r :: rs, r.success && ok, bag2)

/-- `FlowExecutor.executeFlow(flow)`: reset the bag to `{}`, run every
step unconditionally in declaration order, and assemble the
`FlowResult`; `elapsed` is the wall-clock duration, an input of the
environment. -/
def executeFlow (exec : TestStep → JVal → StepResult × JVal) (flow : TestFlow)
    (elapsed : Nat) : FlowResult :=
  match runSteps exec flow.steps (.obj []) with
  | (rs, ok, bag) =>
      { flow := flow, success := ok, duration := elapsed, steps := rs, varsBag := bag }

-- -- Theorems: claims about the executor --

/-- The step loop characterization backing C1: whenever the step
executor tags each result with the executed step (as `executeStep`
does), the loop emits exactly one result per step in order, and its
success flag is the conjunction of the results' flags. -/
theorem runSteps_char (exec : TestStep → JVal → StepResult × JVal)
    (hexec : ∀ s bag, (exec s bag).1.step = s) :
    ∀ (ss : List TestStep) (bag : JVal),
      ((runSteps exec ss bag).1.map (fun r => r.step) = ss) ∧
        ((runSteps exec ss bag).2.1 = (runSteps exec ss bag).1.all (fun r => r.success)) := by
  intro ss
  induction ss with
  | nil => intro bag; simp [runSteps]
  | cons s ss ih =>
      intro bag
      rcases hx : exec s bag with ⟨r, bag1⟩
      rcases hr : runSteps exec ss bag1 with ⟨rs, ok, bag2⟩
      have hmap := (ih bag1).1
      have hall := (ih bag1).2
      rw [hr] at hmap hall
      simp only [runSteps, hx, hr]
      constructor
      · simp only [List.map_cons, hmap]
        have h2 := hexec s bag
        rw [hx] at h2
        simp only [] at h2
        simp [h2]
      · simp only [List.all_cons]
        simp only [] at hall
        rw [hall]

/-- **C1.** For every flow, `executeFlow` executes every step of the
flow in declaration order regardless of individual step failures,
produces exactly one `StepResult` per step, and the returned
`FlowResult`'s `success` field is true iff every `StepResult.success`
is true. (The step executor is arbitrary — in particular nothing about
a failing result short-circuits the loop — subject only to
`executeStep`'s invariant that each result records its step.) -/
theorem C1_executeFlow_all_steps_success_iff
    (exec : TestStep → JVal → StepResult × JVal) (flow : TestFlow) (elapsed : Nat)
    (hexec : ∀ s bag, (exec s bag).1.step = s) :
    ((executeFlow exec flow elapsed).steps.map (fun r => r.step) = flow.steps) ∧
      ((executeFlow exec flow elapsed).success =
        (executeFlow exec flow elapsed).steps.all (fun r => r.success)) := by
  have hc := runSteps_char exec hexec flow.steps (.obj [])
  rcases h : runSteps exec flow.steps (.obj []) with ⟨rs, ok, bag⟩
  rw [h] at hc
  simp only [executeFlow, h]
  exact hc

/-- A concrete step for the C1 witness. -/
def witStep (n : String) : TestStep :=
  { name := n, request := { method := "GET", url := "/x" } }

/-- A step executor for the C1 witness that fails every step (so the
witness also exercises "a failing step does not abort later steps"). -/
def witExec : TestStep → JVal → StepResult × JVal :=
  fun s bag => ({ step := s, success := false }, bag)

/-- Witness for C1: a two-step flow under an always-failing executor
still yields one result per step, in order, and a false flow flag. -/
theorem C1_witness :
    ((executeFlow witExec { name := "f", steps := [witStep "a", witStep "b"] } 5).steps.map
        (fun r => r.step) = [witStep "a", witStep "b"]) ∧
      ((executeFlow witExec { name := "f", steps := [witStep "a", witStep "b"] } 5).success =
        (executeFlow witExec { name := "f", steps := [witStep "a", witStep "b"] } 5).steps.all
          (fun r => r.success)) :=
  C1_executeFlow_all_steps_success_iff witExec { name := "f", steps := [witStep "a", witStep "b"] }
    5 (fun _ _ => rfl)

/-- **C5.** In the Step Executor, an assertion's actual value is the
transport status code when the path is `httpStatus` (whatever the
expected value), and when the path is `status` with a numeric expected
value; when the path is `status` with a non-numeric expected value, and
for every other path, the actual value is extracted from the response
body by the Path Resolver. -/
theorem C5_assertionActual_selection (a : AssertionDefinition) (status : Int) (body : JVal) :
    (a.path = "httpStatus" → assertionActual a status body = .num status) ∧
    (a.path = "status" → a.value.isNum = true → assertionActual a status body = .num status) ∧
    (a.path = "status" → a.value.isNum = false →
      assertionActual a status body = extractValue body a.path) ∧
    (a.path ≠ "httpStatus" → a.path ≠ "status" →
      assertionActual a status body = extractValue body a.path) := by
  refine ⟨?_, ?_, ?_, ?_⟩
  · intro h
    have e : (a.path == "httpStatus") = true := beq_iff_eq.mpr h
    simp [assertionActual, e]
  · intro h1 h2
    have e : (a.path == "status") = true := beq_iff_eq.mpr h1
    simp [assertionActual, e, h2]
  · intro h1 h2
    have e1 : (a.path == "httpStatus") = false := by
      rw [h1]
      decide
    have e2 : (a.path == "status") = true := beq_iff_eq.mpr h1
    simp [assertionActual, e1, e2, h2]
  · intro h1 h2
    have e1 : (a.path == "httpStatus") = false := beq_eq_false_iff_ne.mpr h1
    have e2 : (a.path == "status") = false := beq_eq_false_iff_ne.mpr h2
    simp [assertionActual, e1, e2]

/-- Witness for C5, exercising all four cases at concrete inputs. -/
theorem C5_witness :
    (assertionActual ⟨"httpStatus", .equals, .str "x", none⟩ 404 (.obj []) = .num 404) ∧
      (assertionActual ⟨"status", .equals, .num 200, none⟩ 404 (.obj []) = .num 404) ∧
      (assertionActual ⟨"status", .equals, .str "200", none⟩ 404 (.obj []) =
        extractValue (.obj []) "status") ∧
      (assertionActual ⟨"data.id", .equals, .num 1, none⟩ 404 (.obj []) =
        extractValue (.obj []) "data.id") :=
  ⟨(C5_assertionActual_selection ⟨"httpStatus", .equals, .str "x", none⟩ 404 (.obj [])).1 rfl,
    (C5_assertionActual_selection ⟨"status", .equals, .num 200, none⟩ 404 (.obj [])).2.1 rfl rfl,
    (C5_assertionActual_selection ⟨"status", .equals, .str "200", none⟩ 404 (.obj [])).2.2.1
      rfl rfl,
    (C5_assertionActual_selection ⟨"data.id", .equals, .num 1, none⟩ 404 (.obj [])).2.2.2
      (by decide) (by decide)⟩

/-- **C7 counterexample.** The claim says non-string scalars such as
the number `0` pass through `interpolate` unchanged; in the code
`if (!str || typeof str !== 'string') return str || '';` coerces every
falsy input — `0` and `false` included — to the empty string. -/
theorem C7_counterexample :
    interpolate (.num 0) (.obj []) = .str "" ∧ JVal.str "" ≠ JVal.num 0 := by
  constructor
  · decide
  · decide

/-- **C7 (amended).** `interpolate` returns every truthy non-string
input unchanged; every falsy input — `null`, `undefined`, `false`, the
number `0`, and the empty string — comes back as the empty string. -/
theorem C7_interpolate_nonstring (vars : JVal) (v : JVal) :
    (v.falsy = true → interpolate v vars = .str "") ∧
      (v.falsy = false → v.isStr = false → interpolate v vars = v) := by
  constructor
  · intro h
    simp [interpolate, h]
  · intro h1 h2
    simp [interpolate, h1, h2]

/-- Witness for C7: `false` is coerced to `''`, while the truthy
non-string `5` passes through unchanged. -/
theorem C7_witness :
    (interpolate (.bool false) (.obj []) = .str "") ∧
      (interpolate (.num 5) (.obj []) = .num 5) :=
  ⟨(C7_interpolate_nonstring (.obj []) (.bool false)).1 (by decide),
    (C7_interpolate_nonstring (.obj []) (.num 5)).2 (by decide) (by decide)⟩

/-- `resolveItems` is an element-wise map. -/
theorem resolveItems_eq_map (parse : String → Option JVal) (vars : JVal) (xs : List JVal) :
    resolveItems parse vars xs = xs.map (resolveVariables parse vars) := by
  induction xs with
  | nil => rfl
  | cons x xs ih => simp [resolveItems, ih]

/-- `resolveProps` is a value-wise map. -/
theorem resolveProps_eq_map (parse : String → Option JVal) (vars : JVal)
    (kvs : List (String × JVal)) :
    resolveProps parse vars kvs = kvs.map (fun kv => (kv.1, resolveVariables parse vars kv.2)) := by
  induction kvs with
  | nil => rfl
  | cons kv kvs ih => simp [resolveProps, ih]

/-- **C10.** `resolveVariables` attempts JSON-parsing on every string
it encounters at any nesting depth — the array and object equations
recurse into every element and property value, and the string equation
applies at each of them — whenever the interpolated, trimmed form
starts with `\x7b` or `[`: a successful parse replaces the string by
the parsed structure, a failed parse keeps the interpolated string;
other strings are kept interpolated, and non-string scalars pass
through untouched. -/
theorem C10_resolveVariables_jsonparse_any_depth (parse : String → Option JVal) (vars : JVal) :
    (∀ xs, resolveVariables parse vars (.arr xs) =
      .arr (xs.map (resolveVariables parse vars))) ∧
    (∀ kvs, resolveVariables parse vars (.obj kvs) =
      .obj (kvs.map (fun kv => (kv.1, resolveVariables parse vars kv.2)))) ∧
    (∀ s j, (startsTrimmed (interpolateStr s vars) '\x7b' ||
        startsTrimmed (interpolateStr s vars) '[') = true →
      parse (interpolateStr s vars) = some j →
      resolveVariables parse vars (.str s) = j) ∧
    (∀ s, (startsTrimmed (interpolateStr s vars) '\x7b' ||
        startsTrimmed (interpolateStr s vars) '[') = true →
      parse (interpolateStr s vars) = none →
      resolveVariables parse vars (.str s) = .str (interpolateStr s vars)) ∧
    (∀ s, (startsTrimmed (interpolateStr s vars) '\x7b' ||
        startsTrimmed (interpolateStr s vars) '[') = false →
      resolveVariables parse vars (.str s) = .str (interpolateStr s vars)) ∧
    (∀ n, resolveVariables parse vars (.num n) = .num n) ∧
    (∀ b, resolveVariables parse vars (.bool b) = .bool b) ∧
    (resolveVariables parse vars .null = .null) ∧
    (resolveVariables parse vars .undef = .undef) := by
  refine ⟨?_, ?_, ?_, ?_, ?_, ?_, ?_, ?_, ?_⟩
  · intro xs
    simp [resolveVariables, resolveItems_eq_map]
  · intro kvs
    simp [resolveVariables, resolveProps_eq_map]
  · intro s j hcond hparse
    simp [resolveVariables, hcond, hparse]
  · intro s hcond hparse
    simp [resolveVariables, hcond, hparse]
  · intro s hcond
    simp [resolveVariables, hcond]
  · intro n
    rfl
  · intro b
    rfl
  · rfl
  · rfl

/-- Witness for C10: a parseable bracket string nested inside an array
is replaced by its parsed structure; a brace-looking but unparseable
string and a plain string are kept; scalars pass through. -/
theorem C10_witness :
    (resolveVariables (fun s => if s = "[1]" then some (.arr [.num 1]) else none) (.obj [])
        (.arr [.str "[1]"]) =
      .arr [.arr [.num 1]]) ∧
    (resolveVariables (fun s => if s = "[1]" then some (.arr [.num 1]) else none) (.obj [])
        (.str "\x7bnope") =
      .str "\x7bnope") ∧
    (resolveVariables (fun s => if s = "[1]" then some (.arr [.num 1]) else none) (.obj [])
        (.str "plain") =
      .str "plain") := by
  have h := C10_resolveVariables_jsonparse_any_depth
    (fun s => if s = "[1]" then some (.arr [.num 1]) else none) (.obj [])
  refine ⟨?_, ?_, ?_⟩
  · rw [h.1 [.str "[1]"]]
    rw [show List.map (resolveVariables (fun s => if s = "[1]" then some (.arr [.num 1]) else none)
        (.obj [])) [.str "[1]"] =
      [resolveVariables (fun s => if s = "[1]" then some (.arr [.num 1]) else none) (.obj [])
        (.str "[1]")] from rfl]
    rw [h.2.2.1 "[1]" (.arr [.num 1]) (by decide) (by decide)]
  · have := h.2.2.2.1 "\x7bnope" (by decide) (by decide)
    rw [this]
    decide
  · have := h.2.2.2.2.1 "plain" (by decide)
    rw [this]
    decide

/-- **C9 counterexample.** The claim says a key lookup on a non-object
current value yields `undefined` for every key, "including keys such as
`length` on a string value"; but JavaScript boxes the string primitive,
so `extractValue({a: "abc"}, "a.length")` is `3`, not `undefined`. -/
theorem C9_counterexample :
    extractValue (.obj [("a", .str "abc")]) "a.length" = .num 3 ∧
      JVal.num 3 ≠ JVal.undef := by
  exact ⟨by decide, by decide⟩

/-- Resolution that has reached `undefined` stays `undefined`. -/
theorem extractSteps_undef (parts : List String) : extractSteps .undef parts = .undef := by
  cases parts with
  | nil => rfl
  | cons part rest => simp [extractSteps]

/-- **C9 (amended).** A non-indexed segment's key lookup on a
non-object current value yields `undefined` for every key on numbers,
booleans and `null` — but a string value is boxed as in JavaScript:
`length` yields its length, a canonical in-range index yields a
one-character string, and every other key yields `undefined`; and with
a number (or boolean) as the current value the whole remaining
resolution collapses to `undefined`. -/
theorem C9_lookup_on_nonobject (k : String) (n : Int) (b : Bool) (s : String) :
    (propGet (.num n) k = .undef) ∧
    (propGet (.bool b) k = .undef) ∧
    (propGet JVal.null k = .undef) ∧
    (propGet (.str s) "length" = .num s.length) ∧
    (k ≠ "length" → canonIndex k = none → propGet (.str s) k = .undef) ∧
    (∀ i, canonIndex k = some i →
      propGet (.str s) k =
        (match s.data.get? i with | some c => .str (String.mk [c]) | none => .undef)) ∧
    (∀ part rest, extractSteps (.num n) (part :: rest) = .undef) ∧
    (∀ part rest, extractSteps (.bool b) (part :: rest) = .undef) := by
  refine ⟨rfl, rfl, rfl, by simp [propGet], ?_, ?_, ?_, ?_⟩
  · intro hk hci
    simp [propGet, hk, hci]
  · intro i hci
    have hk : k ≠ "length" := by
      intro hlen
      rw [hlen] at hci
      have hnone : canonIndex "length" = none := by decide
      rw [hnone] at hci
      exact Option.noConfusion hci
    simp [propGet, hk, hci]
  · intro part rest
    rcases has : parseArraySeg part with _ | ⟨name, idx⟩
    · simp [extractSteps, has, propGet, extractSteps_undef]
    · simp [extractSteps, has, propGet]
  · intro part rest
    rcases has : parseArraySeg part with _ | ⟨name, idx⟩
    · simp [extractSteps, has, propGet, extractSteps_undef]
    · simp [extractSteps, has, propGet]

/-- Witness for C9's amended claim at concrete inputs. -/
theorem C9_witness :
    (propGet (.num 3) "anything" = .undef) ∧
      (propGet (.str "abc") "length" = .num 3) ∧
      (propGet (.str "abc") "foo" = .undef) ∧
      (extractSteps (.num 3) ["toString"] = .undef) := by
  have h := C9_lookup_on_nonobject "foo" 3 true "abc"
  have h2 := C9_lookup_on_nonobject "anything" 3 true "abc"
  refine ⟨h2.1, ?_, ?_, ?_⟩
  · have := h.2.2.2.1
    simpa using this
  · exact h.2.2.2.2.1 (by decide) (by decide)
  · exact (C9_lookup_on_nonobject "x" 3 true "abc").2.2.2.2.2.2.1 "toString" []

/-- A string with nonempty character data is not the empty string. -/
theorem ne_empty_of_data {s : String} (h : s.data ≠ []) : s ≠ "" := by
  intro hc
  subst hc
  exact h rfl

/-- A concatenation whose middle piece is a nonempty literal is not
empty. -/
theorem mid_lit_ne_empty (x : String) {m : String} (hm : m.data ≠ []) (y : String) :
    x ++ m ++ y ≠ "" := by
  intro hc
  have hd := congrArg String.data hc
  rw [String.data_append, String.data_append] at hd
  have h0 : ("" : String).data = [] := rfl
  rw [h0] at hd
  rcases List.append_eq_nil.mp hd with ⟨hxy, _⟩
  exact hm (List.append_eq_nil.mp hxy).2

/-- A concatenation whose last piece is a nonempty literal is not
empty. -/
theorem end_lit_ne_empty (x : String) {m : String} (hm : m.data ≠ []) :
    x ++ m ≠ "" := by
  intro hc
  have hd := congrArg String.data hc
  rw [String.data_append] at hd
  have h0 : ("" : String).data = [] := rfl
  rw [h0] at hd
  exact hm (List.append_eq_nil.mp hd).2

/-- The caller-supplied override keeps a nonempty message nonempty:
a present override is used only when itself nonempty (truthy). -/
theorem overrideMsg_ne_empty (a : AssertionDefinition) {computed : String}
    (h : computed ≠ "") : overrideMsg a computed ≠ "" := by
  cases hm : a.message with
  | none => simpa [overrideMsg, hm] using h
  | some m =>
      simp only [overrideMsg, hm]
      split
      · exact h
      · rename_i hne
        exact hne

/-- Both branches nonempty makes the conditional message nonempty. -/
theorem ite_ne_empty {c : Prop} [Decidable c] {m1 m2 : String} (h1 : m1 ≠ "") (h2 : m2 ≠ "") :
    (if c then m1 else m2) ≠ "" := by
  split
  · exact h1
  · exact h2

/-- **C6 counterexample.** The claim says `contains` on a sequence
succeeds when the expected value is an element compared by structural
value, "including for object and array elements"; the code uses
`Array.prototype.includes`, whose SameValueZero comparison is reference
equality on objects, so a structurally equal object element is not
found: the assertion fails although the expected object is an element
of the actual array by value. -/
theorem C6_counterexample :
    resultSuccess? (evaluateAssertion parenSem ⟨"p", .contains, .obj [("a", .num 1)], none⟩
        (.arr [.obj [("a", .num 1)]])) = some false ∧
      (JVal.obj [("a", JVal.num 1)]) ∈ [JVal.obj [("a", JVal.num 1)]] := by
  exact ⟨by decide, by decide⟩

/-- **C6 (amended).** The `contains` operator succeeds exactly when:
the actual value is a string and the string form of the expected value
is a substring of it, or the actual value is a sequence with an element
equal to the expected value under SameValueZero — which compares
primitives by value and objects/arrays by reference, so (the operands
coming from distinct allocations) a structured expected value is never
found; for an actual value that is neither a string nor a sequence,
`contains` fails. -/
theorem C6_contains_semantics (sem : RegExpSem) (a : AssertionDefinition) (actual : JVal)
    (hop : a.operator = .contains) :
    ∃ r, evaluateAssertion sem a actual = .ok r ∧
      (∀ s, actual = .str s → r.success = strIncludes s (jsToString a.value)) ∧
      (∀ xs, actual = .arr xs → r.success = xs.any (fun x => sameValueZero x a.value)) ∧
      (actual.isStr = false → actual.isArr = false → r.success = false) := by
  rcases a with ⟨path, op, value, msg⟩
  cases hop
  refine ⟨_, rfl, ?_, ?_, ?_⟩
  · intro s hs
    subst hs
    rfl
  · intro xs hx
    subst hx
    rfl
  · intro h1 h2
    cases actual <;> first | rfl | simp [JVal.isStr, JVal.isArr] at h1 h2

/-- Witness for C6: a substring hit on a string actual, a primitive hit
on an array actual, and a failure on a number actual. -/
theorem C6_witness :
    (∃ r, evaluateAssertion parenSem ⟨"p", .contains, .str "ell", none⟩ (.str "hello") = .ok r ∧
      r.success = strIncludes "hello" (jsToString (.str "ell"))) ∧
      resultSuccess? (evaluateAssertion parenSem ⟨"p", .contains, .str "ell", none⟩
        (.str "hello")) = some true ∧
      resultSuccess? (evaluateAssertion parenSem ⟨"p", .contains, .num 2, none⟩
        (.arr [.num 1, .num 2])) = some true ∧
      resultSuccess? (evaluateAssertion parenSem ⟨"p", .contains, .num 2, none⟩
        (.num 2)) = some false := by
  refine ⟨?_, by decide, by decide, by decide⟩
  obtain ⟨r, hr, hs, _, _⟩ :=
    C6_contains_semantics parenSem ⟨"p", .contains, .str "ell", none⟩ (.str "hello") rfl
  exact ⟨r, hr, hs "hello" rfl⟩

/-- **C3 counterexample.** The claim says `evaluateAssertion` never
throws, malformed regular-expression patterns included; but the
`matches` branch calls `new RegExp(assertion.value)` whenever the
actual value and the pattern are both strings, and on the invalid
pattern `"("` that constructor throws a `SyntaxError` which
`evaluateAssertion` does not catch. -/
theorem C3_counterexample :
    evaluateAssertion parenSem ⟨"p", .matchesOp, .str "(", none⟩ (.str "abc") =
      .error "SyntaxError: Invalid regular expression: (" := by
  rfl

/-- **C3 (amended).** For every assertion over the 10 operators and
every actual value, `evaluateAssertion` returns an `AssertionResult`
with a nonempty message and never throws — except in exactly one case:
the `matches` operator with a string actual value and a string expected
value whose pattern does not compile, where `new RegExp` throws a
`SyntaxError` (uncaught here, caught only at the Step Executor
boundary). Unsupported or missing data otherwise yields
`success=false`: a non-numeric actual under `greaterThan`/`lessThan`,
a non-string operand under `matches`, and the synchronous `ai-evaluate`
fallback all fail rather than error. -/
theorem C3_no_throw_except_invalid_regex (sem : RegExpSem) (a : AssertionDefinition)
    (actual : JVal)
    (hreg : ¬(a.operator = .matchesOp ∧ actual.isStr = true ∧ a.value.isStr = true ∧
      sem.compile a.value.getStr = none)) :
    ∃ r, evaluateAssertion sem a actual = .ok r ∧ r.message ≠ "" ∧
      ((a.operator = .greaterThan ∨ a.operator = .lessThan) → actual.isNum = false →
        r.success = false) ∧
      (a.operator = .matchesOp → (actual.isStr = false ∨ a.value.isStr = false) →
        r.success = false) ∧
      (a.operator = .aiEvaluate → r.success = false) := by
  rcases a with ⟨path, op, value, msg⟩
  cases op
  case equals =>
    refine ⟨_, rfl, ?_, ?_, ?_, ?_⟩
    · exact overrideMsg_ne_empty _ (ite_ne_empty (mid_lit_ne_empty _ (by decide) _)
        (mid_lit_ne_empty _ (by decide) _))
    · intro h _
      rcases h with h | h <;> nomatch h
    · intro h
      nomatch h
    · intro h
      nomatch h
  case notEquals =>
    refine ⟨_, rfl, ?_, ?_, ?_, ?_⟩
    · exact overrideMsg_ne_empty _ (ite_ne_empty (mid_lit_ne_empty _ (by decide) _)
        (mid_lit_ne_empty _ (by decide) _))
    · intro h _
      rcases h with h | h <;> nomatch h
    · intro h
      nomatch h
    · intro h
      nomatch h
  case contains =>
    refine ⟨_, rfl, ?_, ?_, ?_, ?_⟩
    · exact overrideMsg_ne_empty _ (ite_ne_empty (mid_lit_ne_empty _ (by decide) _)
        (mid_lit_ne_empty _ (by decide) _))
    · intro h _
      rcases h with h | h <;> nomatch h
    · intro h
      nomatch h
    · intro h
      nomatch h
  case notContains =>
    refine ⟨_, rfl, ?_, ?_, ?_, ?_⟩
    · exact overrideMsg_ne_empty _ (ite_ne_empty (mid_lit_ne_empty _ (by decide) _)
        (mid_lit_ne_empty _ (by decide) _))
    · intro h _
      rcases h with h | h <;> nomatch h
    · intro h
      nomatch h
    · intro h
      nomatch h
  case existsOp =>
    refine ⟨_, rfl, ?_, ?_, ?_, ?_⟩
    · exact overrideMsg_ne_empty _ (ite_ne_empty (end_lit_ne_empty _ (by decide))
        (end_lit_ne_empty _ (by decide)))
    · intro h _
      rcases h with h | h <;> nomatch h
    · intro h
      nomatch h
    · intro h
      nomatch h
  case notExistsOp =>
    refine ⟨_, rfl, ?_, ?_, ?_, ?_⟩
    · exact overrideMsg_ne_empty _ (ite_ne_empty (end_lit_ne_empty _ (by decide))
        (end_lit_ne_empty _ (by decide)))
    · intro h _
      rcases h with h | h <;> nomatch h
    · intro h
      nomatch h
    · intro h
      nomatch h
  case greaterThan =>
    refine ⟨_, rfl, ?_, ?_, ?_, ?_⟩
    · exact overrideMsg_ne_empty _ (ite_ne_empty (mid_lit_ne_empty _ (by decide) _)
        (mid_lit_ne_empty _ (by decide) _))
    · intro _ hnum
      cases actual <;> first | rfl | simp [JVal.isNum] at hnum
    · intro h
      nomatch h
    · intro h
      nomatch h
  case lessThan =>
    refine ⟨_, rfl, ?_, ?_, ?_, ?_⟩
    · exact overrideMsg_ne_empty _ (ite_ne_empty (mid_lit_ne_empty _ (by decide) _)
        (mid_lit_ne_empty _ (by decide) _))
    · intro _ hnum
      cases actual <;> first | rfl | simp [JVal.isNum] at hnum
    · intro h
      nomatch h
    · intro h
      nomatch h
  case matchesOp =>
    by_cases hs : (actual.isStr && value.isStr) = true
    · have h12 := hs
      simp only [Bool.and_eq_true] at h12
      rcases h12 with ⟨h1, h2⟩
      rcases hcomp : sem.compile value.getStr with _ | test
      · exact absurd ⟨rfl, h1, h2, hcomp⟩ hreg
      · have heq : evaluateAssertion sem ⟨path, .matchesOp, value, msg⟩ actual =
            .ok ⟨⟨path, .matchesOp, value, msg⟩, test actual.getStr, actual,
              overrideMsg ⟨path, .matchesOp, value, msg⟩
                (if test actual.getStr then path ++ " matches " ++ jsToString value
                  else "Expected " ++ path ++ " to match " ++ jsToString value)⟩ := by
          unfold evaluateAssertion
          dsimp only
          rw [if_pos hs, hcomp]
        refine ⟨_, heq, ?_, ?_, ?_, ?_⟩
        · exact overrideMsg_ne_empty _ (ite_ne_empty (mid_lit_ne_empty _ (by decide) _)
            (mid_lit_ne_empty _ (by decide) _))
        · intro h _
          rcases h with h | h <;> nomatch h
        · intro _ hor
          rcases hor with h | h
          · rw [h1] at h
            nomatch h
          · rw [h2] at h
            nomatch h
        · intro h
          nomatch h
    · have heq : evaluateAssertion sem ⟨path, .matchesOp, value, msg⟩ actual =
          .ok ⟨⟨path, .matchesOp, value, msg⟩, false, actual,
            overrideMsg ⟨path, .matchesOp, value, msg⟩
              ("Expected " ++ path ++ " to match " ++ jsToString value)⟩ := by
        unfold evaluateAssertion
        dsimp only
        rw [if_neg hs]
      refine ⟨_, heq, ?_, ?_, ?_, ?_⟩
      · exact overrideMsg_ne_empty _ (mid_lit_ne_empty _ (by decide) _)
      · intro h _
        rcases h with h | h <;> nomatch h
      · intro _ _
        rfl
      · intro h
        nomatch h
  case aiEvaluate =>
    refine ⟨_, rfl, ?_, ?_, ?_, ?_⟩
    · exact overrideMsg_ne_empty _ (by decide)
    · intro h _
      rcases h with h | h <;> nomatch h
    · intro h
      nomatch h
    · intro _
      rfl

/-- Witness for C3: the safe path at concrete inputs — a `greaterThan`
against a string actual returns a failed result with a message, without
throwing. -/
theorem C3_witness :
    (∃ r, evaluateAssertion parenSem ⟨"p", .greaterThan, .num 3, none⟩ (.str "x") = .ok r ∧
      r.message ≠ "" ∧
      ((AssertOp.greaterThan = .greaterThan ∨ AssertOp.greaterThan = .lessThan) →
        (JVal.str "x").isNum = false → r.success = false) ∧
      (AssertOp.greaterThan = .matchesOp →
        ((JVal.str "x").isStr = false ∨ (JVal.num 3).isStr = false) → r.success = false) ∧
      (AssertOp.greaterThan = .aiEvaluate → r.success = false)) ∧
      resultSuccess? (evaluateAssertion parenSem ⟨"p", .greaterThan, .num 3, none⟩
        (.str "x")) = some false :=
  ⟨C3_no_throw_except_invalid_regex parenSem ⟨"p", .greaterThan, .num 3, none⟩ (.str "x")
      (fun h => nomatch h.1),
    by decide⟩

/-- Elapsed time never decreases along the poll loop's iterations. -/
theorem elapsedAt_mono (interval : Nat) (latencies : Nat → Nat) :
    ∀ {m n : Nat}, m ≤ n → elapsedAt interval latencies m ≤ elapsedAt interval latencies n := by
  intro m n h
  induction n with
  | zero =>
      have : m = 0 := Nat.le_zero.mp h
      subst this
      exact le_rfl
  | succ n ih =>
      rcases Nat.eq_or_lt_of_le h with rfl | hlt
      · exact le_rfl
      · have := ih (Nat.lt_succ_iff.mp hlt)
        have hstep : elapsedAt interval latencies n ≤ elapsedAt interval latencies (n + 1) := by
          simp only [elapsedAt]
          omega
        omega

/-- The poll loop characterization: starting at iteration `k` with the
matching elapsed time, the loop settles on some observed response `j ≥
k`; every strictly earlier observation was checked before the deadline
and failed the condition, and the settling observation either met the
condition or lies past the deadline. The fuel hypothesis is the budget
invariant maintained by `poll`'s initial `timeout + 1` supply. -/
theorem pollLoop_spec (cfg : WaitUntilConfig) (timeout interval : Nat) (latencies : Nat → Nat)
    (resps : Nat → HttpResponse) (initial : HttpResponse) (hint : 1 ≤ interval) :
    ∀ (fuel k : Nat), timeout + 1 ≤ elapsedAt interval latencies k + fuel →
      ∃ j, k ≤ j ∧
        pollLoop cfg timeout interval latencies resps fuel k
            (elapsedAt interval latencies k) (observedResp initial resps k) =
          observedResp initial resps j ∧
        (∀ i, k ≤ i → i < j → elapsedAt interval latencies i < timeout ∧
          pollMet cfg (observedResp initial resps i).data = false) ∧
        (pollMet cfg (observedResp initial resps j).data = true ∨
          timeout ≤ elapsedAt interval latencies j) := by
  intro fuel
  induction fuel with
  | zero =>
      intro k hk
      refine ⟨k, le_rfl, rfl, ?_, Or.inr (by omega)⟩
      intro i h1 h2
      omega
  | succ fuel ih =>
      intro k hk
      by_cases he : elapsedAt interval latencies k < timeout
      · by_cases hmet : pollMet cfg (observedResp initial resps k).data = true
        · refine ⟨k, le_rfl, ?_, ?_, Or.inl hmet⟩
          · simp [pollLoop, he, hmet]
          · intro i h1 h2
            omega
        · have hmet2 : pollMet cfg (observedResp initial resps k).data = false := by
            simpa using hmet
          have hk2 : timeout + 1 ≤ elapsedAt interval latencies (k + 1) + fuel := by
            have : elapsedAt interval latencies (k + 1) =
                elapsedAt interval latencies k + interval + latencies k := rfl
            omega
          obtain ⟨j, hkj, heq, hpre, hend⟩ := ih (k + 1) hk2
          refine ⟨j, by omega, ?_, ?_, hend⟩
          · have hred : pollLoop cfg timeout interval latencies resps (fuel + 1) k
                (elapsedAt interval latencies k) (observedResp initial resps k) =
                pollLoop cfg timeout interval latencies resps fuel (k + 1)
                  (elapsedAt interval latencies (k + 1)) (observedResp initial resps (k + 1)) := by
              simp only [pollLoop]
              rw [if_pos he, if_neg hmet]
              rfl
            rw [hred, heq]
          · intro i h1 h2
            rcases Nat.eq_or_lt_of_le h1 with rfl | hlt
            · exact ⟨he, hmet2⟩
            · exact hpre i hlt h2
      · refine ⟨k, le_rfl, ?_, ?_, Or.inr (by omega)⟩
        · simp [pollLoop, he]
        · intro i h1 h2
          omega

/-- The effective interval is always positive (`0` and absent both fall
back to the 2000 ms default). -/
theorem orDefault_interval_pos (o : Option Nat) : 1 ≤ orDefault o 2000 := by
  rcases o with _ | v
  · simp [orDefault]
  · simp only [orDefault]
    split
    · omega
    · omega

/-- **C4.** The poller settles on one of the observed responses: some
response that met the condition while the deadline had not yet passed —
every earlier observation having been checked before the deadline and
having failed — or, once the timeout elapses without the condition
ever being met, the last response obtained (the first observation past
the deadline); in both cases a response is returned, never an error,
so a timeout is not reported as a failure by the poller itself. The
final conjunct makes the first reading explicit: if any response
observed before the deadline satisfies the condition, the returned
response satisfies it. -/
theorem C4_poll_settles (cfg : WaitUntilConfig) (latencies : Nat → Nat)
    (resps : Nat → HttpResponse) (initial : HttpResponse) :
    ∃ j, poll cfg latencies resps initial = observedResp initial resps j ∧
      (∀ i, i < j →
        elapsedAt (orDefault cfg.interval 2000) latencies i < orDefault cfg.timeout 30000 ∧
        pollMet cfg (observedResp initial resps i).data = false) ∧
      (pollMet cfg (observedResp initial resps j).data = true ∨
        orDefault cfg.timeout 30000 ≤ elapsedAt (orDefault cfg.interval 2000) latencies j) ∧
      ((∃ i, elapsedAt (orDefault cfg.interval 2000) latencies i < orDefault cfg.timeout 30000 ∧
          pollMet cfg (observedResp initial resps i).data = true) →
        pollMet cfg (poll cfg latencies resps initial).data = true) := by
  obtain ⟨j, hj0, heq, hpre, hend⟩ :=
    pollLoop_spec cfg (orDefault cfg.timeout 30000) (orDefault cfg.interval 2000) latencies
      resps initial (orDefault_interval_pos cfg.interval) (orDefault cfg.timeout 30000 + 1) 0
      (by simp [elapsedAt])
  have hpoll : poll cfg latencies resps initial = observedResp initial resps j := heq
  refine ⟨j, hpoll, fun i hi => hpre i (Nat.zero_le i) hi, hend, ?_⟩
  rintro ⟨i, hilt, himet⟩
  rw [hpoll]
  rcases hend with hmet | hlate
  · exact hmet
  · exfalso
    have hij : i < j := by
      by_contra hc
      have : j ≤ i := Nat.le_of_not_lt hc
      have := elapsedAt_mono (orDefault cfg.interval 2000) latencies this
      omega
    have := (hpre i (Nat.zero_le i) hij).2
    rw [this] at himet
    exact Bool.noConfusion himet

/-- Witness for C4 at a concrete configuration: a condition on
`data.status` that is never met, a 5 ms timeout and 2 ms interval, and
constant re-issued responses — the poller returns an observed response
(the theorem's shape), and concretely the run times out and hands back
the last response rather than an error. -/
theorem C4_witness :
    (∃ j, poll ⟨"data.status", .equals, .str "DONE", some 5, some 2⟩ (fun _ => 1)
        (fun _ => ⟨200, .obj [("data", .obj [("status", .str "PENDING")])]⟩)
        ⟨200, .obj [("data", .obj [("status", .str "PENDING")])]⟩ =
      observedResp ⟨200, .obj [("data", .obj [("status", .str "PENDING")])]⟩
        (fun _ => ⟨200, .obj [("data", .obj [("status", .str "PENDING")])]⟩) j) ∧
      poll ⟨"data.status", .equals, .str "DONE", some 5, some 2⟩ (fun _ => 1)
        (fun _ => ⟨200, .obj [("data", .obj [("status", .str "PENDING")])]⟩)
        ⟨200, .obj [("data", .obj [("status", .str "PENDING")])]⟩ =
      ⟨200, .obj [("data", .obj [("status", .str "PENDING")])]⟩ :=
  ⟨⟨(C4_poll_settles ⟨"data.status", .equals, .str "DONE", some 5, some 2⟩ (fun _ => 1)
      (fun _ => ⟨200, .obj [("data", .obj [("status", .str "PENDING")])]⟩)
      ⟨200, .obj [("data", .obj [("status", .str "PENDING")])]⟩).choose,
    (C4_poll_settles ⟨"data.status", .equals, .str "DONE", some 5, some 2⟩ (fun _ => 1)
      (fun _ => ⟨200, .obj [("data", .obj [("status", .str "PENDING")])]⟩)
      ⟨200, .obj [("data", .obj [("status", .str "PENDING")])]⟩).choose_spec.1⟩,
    by decide⟩

-- -- Unambiguity of the JSON serialization (towards C2) --

/-- Reading the decimal digit characters back recovers the number. -/
theorem digitsToNat_natDigitChars (n : Nat) : digitsToNat (natDigitChars n) = n := by
  unfold natDigitChars
  by_cases h : n = 0
  · rw [if_pos h, h]
    decide
  · rw [if_neg h]
    unfold digitsToNat
    rw [List.foldl_reverse, List.foldr_map]
    have key : ∀ (L : List Nat), (∀ d ∈ L, d < 10) →
        L.foldr (fun d a => 10 * a + ((Nat.digitChar d).toNat - '0'.toNat)) 0 =
          Nat.ofDigits 10 L := by
      intro L
      induction L with
      | nil => intro _; simp [Nat.ofDigits]
      | cons d L ih =>
          intro hall
          have hd : d < 10 := hall d (List.mem_cons_self _ _)
          have hrest := ih (fun x hx => hall x (List.mem_cons_of_mem _ hx))
          simp only [List.foldr_cons, hrest, Nat.ofDigits_cons]
          have hdig : (Nat.digitChar d).toNat - '0'.toNat = d := by
            interval_cases d <;> decide
          rw [hdig]
          omega
    rw [key _ (fun d hd => Nat.digits_lt_base (by norm_num) hd), Nat.ofDigits_digits]

/-- The decimal rendering of a natural number is all digit characters. -/
theorem natDigitChars_all_digits (n : Nat) : (natDigitChars n).all isDigitChar = true := by
  unfold natDigitChars
  by_cases h : n = 0
  · rw [if_pos h]
    decide
  · rw [if_neg h]
    rw [List.all_eq_true]
    intro c hc
    rw [List.mem_reverse] at hc
    obtain ⟨d, hd, rfl⟩ := List.mem_map.mp hc
    have : d < 10 := Nat.digits_lt_base (by norm_num) hd
    interval_cases d <;> decide

/-- The decimal rendering of a natural number is nonempty. -/
theorem natDigitChars_ne_nil (n : Nat) : natDigitChars n ≠ [] := by
  unfold natDigitChars
  by_cases h : n = 0
  · rw [if_pos h]
    decide
  · rw [if_neg h]
    intro hc
    rw [List.reverse_eq_nil_iff, List.map_eq_nil_iff] at hc
    exact h (Nat.digits_eq_nil_iff_eq_zero.mp hc)

/-- The rest of the input after a serialized value either ends or goes
on with a JSON delimiter; this is what makes maximal-munch pieces
(numbers) unambiguous. -/
def isDelim : List Char → Prop
  | [] => True
  | c :: _ => c = ',' ∨ c = ']' ∨ c = '\x7d'

/-- The rest never begins with the character class `p` in hand. -/
def headNotP (p : Char → Bool) : List Char → Prop
  | [] => True
  | c :: _ => p c = false

/-- A run of `p`-characters followed by a non-`p` rest is a unique
decomposition. -/
theorem run_unique {p : Char → Bool} :
    ∀ (A B r s : List Char), A.all p = true → B.all p = true →
      headNotP p r → headNotP p s → A ++ r = B ++ s → A = B ∧ r = s := by
  intro A
  induction A with
  | nil =>
      intro B r s _ hB hr hs h
      cases B with
      | nil => exact ⟨rfl, h⟩
      | cons b B =>
          rw [List.nil_append, List.cons_append] at h
          subst h
          rw [List.all_cons, Bool.and_eq_true] at hB
          simp only [headNotP] at hr
          rw [hB.1] at hr
          exact Bool.noConfusion hr
  | cons a A ih =>
      intro B r s hA hB hr hs h
      cases B with
      | nil =>
          rw [List.cons_append, List.nil_append] at h
          rw [List.all_cons, Bool.and_eq_true] at hA
          rw [← h] at hs
          simp only [headNotP] at hs
          rw [hA.1] at hs
          exact Bool.noConfusion hs
      | cons b B =>
          rw [List.cons_append, List.cons_append] at h
          injection h with h1 h2
          rw [List.all_cons, Bool.and_eq_true] at hA hB
          obtain ⟨heq, hrs⟩ := ih B r s hA.2 hB.2 hr hs h2
          exact ⟨by rw [h1, heq], hrs⟩

/-- A JSON delimiter (or end of input) is never a digit. -/
theorem isDelim_headNot_digit {r : List Char} (h : isDelim r) : headNotP isDigitChar r := by
  cases r with
  | nil => trivial
  | cons c r1 =>
      simp only [isDelim] at h
      simp only [headNotP]
      rcases h with h | h | h <;> (subst h; decide)

/-- A serialized integer followed by a delimiter determines the integer
and the rest: the sign character and the maximal digit run are
unambiguous. -/
theorem numRepr_unamb :
    ∀ (n m : Int) (r s : List Char), isDelim r → isDelim s →
      numRepr n ++ r = numRepr m ++ s → n = m ∧ r = s := by
  intro n m r s hr hs h
  unfold numRepr at h
  by_cases hn : n < 0 <;> by_cases hm : m < 0
  · rw [if_pos hn, if_pos hm] at h
    rw [List.cons_append, List.cons_append] at h
    injection h with h1 h2
    obtain ⟨hAB, hrs⟩ := run_unique _ _ _ _ (natDigitChars_all_digits n.natAbs)
      (natDigitChars_all_digits m.natAbs) (isDelim_headNot_digit hr) (isDelim_headNot_digit hs) h2
    have habs : n.natAbs = m.natAbs := by
      have := congrArg digitsToNat hAB
      rwa [digitsToNat_natDigitChars, digitsToNat_natDigitChars] at this
    exact ⟨by omega, hrs⟩
  · rw [if_pos hn, if_neg hm] at h
    exfalso
    rcases hB : natDigitChars m.toNat with _ | ⟨c, B⟩
    · exact natDigitChars_ne_nil m.toNat hB
    · rw [hB, List.cons_append, List.cons_append] at h
      injection h with h1 h2
      have hall := natDigitChars_all_digits m.toNat
      rw [hB, List.all_cons, Bool.and_eq_true] at hall
      rw [← h1] at hall
      exact Bool.noConfusion hall.1
  · rw [if_neg hn, if_pos hm] at h
    exfalso
    rcases hA : natDigitChars n.toNat with _ | ⟨c, A⟩
    · exact natDigitChars_ne_nil n.toNat hA
    · rw [hA, List.cons_append, List.cons_append] at h
      injection h with h1 h2
      have hall := natDigitChars_all_digits n.toNat
      rw [hA, List.all_cons, Bool.and_eq_true] at hall
      rw [h1] at hall
      exact Bool.noConfusion hall.1
  · rw [if_neg hn, if_neg hm] at h
    obtain ⟨hAB, hrs⟩ := run_unique _ _ _ _ (natDigitChars_all_digits n.toNat)
      (natDigitChars_all_digits m.toNat) (isDelim_headNot_digit hr) (isDelim_headNot_digit hs) h
    have habs : n.toNat = m.toNat := by
      have := congrArg digitsToNat hAB
      rwa [digitsToNat_natDigitChars, digitsToNat_natDigitChars] at this
    exact ⟨by omega, hrs⟩

/-- The hexadecimal value of one lowercase hex digit character. -/
def hexVal (c : Char) : Nat :=
  if c.isDigit then c.toNat - '0'.toNat else c.toNat - 'a'.toNat + 10

/-- One-step decoder for the escapes `escChar` can emit (plain
character, two-character escape, or `\u00XX`); total enough to serve
as a left inverse on the encoder's image. -/
def unescape1 : List Char → Option (Char × List Char)
  | [] => none
  | c :: r =>
      if c = '\\' then
        match r with
        | [] => none
        | e :: r1 =>
            if e = '"' then some ('"', r1)
            else if e = '\\' then some ('\\', r1)
            else if e = 'b' then some ('\x08', r1)
            else if e = 'f' then some ('\x0c', r1)
            else if e = 'n' then some ('\n', r1)
            else if e = 'r' then some ('\r', r1)
            else if e = 't' then some ('\t', r1)
            else if e = 'u' then
              match r1 with
              | _ :: _ :: h1 :: h2 :: r2 => some (Char.ofNat (16 * hexVal h1 + hexVal h2), r2)
              | _ => none
            else none
      else some (c, r)

/-- `unescape1` undoes `escChar`: the escape map is a prefix code. -/
theorem unescape1_escChar (c : Char) (u : List Char) :
    unescape1 (escChar c ++ u) = some (c, u) := by
  unfold escChar
  by_cases h1 : c = '"'
  · rw [if_pos h1]; subst h1; rfl
  rw [if_neg h1]
  by_cases h2 : c = '\\'
  · rw [if_pos h2]; subst h2; rfl
  rw [if_neg h2]
  by_cases h3 : c = '\x08'
  · rw [if_pos h3]; subst h3; rfl
  rw [if_neg h3]
  by_cases h4 : c = '\x0c'
  · rw [if_pos h4]; subst h4; rfl
  rw [if_neg h4]
  by_cases h5 : c = '\n'
  · rw [if_pos h5]; subst h5; rfl
  rw [if_neg h5]
  by_cases h6 : c = '\r'
  · rw [if_pos h6]; subst h6; rfl
  rw [if_neg h6]
  by_cases h7 : c = '\t'
  · rw [if_pos h7]; subst h7; rfl
  rw [if_neg h7]
  by_cases h8 : c.toNat < 32
  · rw [if_pos h8]
    show unescape1 ('\\' :: 'u' :: '0' :: '0' :: _ :: _ :: u) = some (c, u)
    have hval : 16 * hexVal (Nat.digitChar (c.toNat / 16)) + hexVal (Nat.digitChar (c.toNat % 16)) =
        c.toNat := by
      have hq : c.toNat / 16 < 2 := by omega
      have hr : c.toNat % 16 < 16 := Nat.mod_lt _ (by norm_num)
      have e1 : hexVal (Nat.digitChar (c.toNat / 16)) = c.toNat / 16 := by
        interval_cases h : (c.toNat / 16) <;> decide
      have e2 : hexVal (Nat.digitChar (c.toNat % 16)) = c.toNat % 16 := by
        interval_cases h : (c.toNat % 16) <;> decide
      rw [e1, e2]
      omega
    simp only [unescape1]
    norm_num
    rw [hval, Char.ofNat_toNat]
    simp
  · rw [if_neg h8]
    show unescape1 (c :: u) = some (c, u)
    simp only [unescape1]
    rw [if_neg h2]

/-- A serialized string body closed by its quote is unambiguous: the
escape map never produces an unescaped quote, and is a prefix code. -/
theorem flatMapEsc_unamb :
    ∀ (x y r s : List Char),
      x.flatMap escChar ++ '"' :: r = y.flatMap escChar ++ '"' :: s → x = y ∧ r = s := by
  intro x
  induction x with
  | nil =>
      intro y r s h
      cases y with
      | nil =>
          simp only [List.flatMap_nil, List.nil_append] at h
          injection h with h1 h2
          exact ⟨rfl, h2⟩
      | cons d ys =>
          exfalso
          simp only [List.flatMap_nil, List.nil_append, List.flatMap_cons,
            List.append_assoc] at h
          have h2 := congrArg unescape1 h
          rw [unescape1_escChar] at h2
          have h3 : unescape1 ('"' :: r) = some ('"', r) := by
            simp [unescape1]
          rw [h3] at h2
          injection h2 with h4
          injection h4 with h5 h6
          rw [← h5] at h
          rw [show escChar '"' = ['\\', '"'] from rfl] at h
          simp at h
  | cons c xs ih =>
      intro y r s h
      cases y with
      | nil =>
          exfalso
          simp only [List.flatMap_nil, List.nil_append, List.flatMap_cons,
            List.append_assoc] at h
          have h2 := congrArg unescape1 h
          rw [unescape1_escChar] at h2
          have h3 : unescape1 ('"' :: s) = some ('"', s) := by
            simp [unescape1]
          rw [h3] at h2
          injection h2 with h4
          injection h4 with h5 h6
          rw [h5] at h
          rw [show escChar '"' = ['\\', '"'] from rfl] at h
          simp at h
      | cons d ys =>
          simp only [List.flatMap_cons, List.append_assoc] at h
          have h2 := congrArg unescape1 h
          rw [unescape1_escChar, unescape1_escChar] at h2
          injection h2 with h3
          injection h3 with h4 h5
          subst h4
          obtain ⟨hxy, hrs⟩ := ih ys r s h5
          exact ⟨by rw [hxy], hrs⟩

/-- A JSON string literal is self-delimiting. -/
theorem quoteChars_unamb :
    ∀ (x y r s : List Char), quoteChars x ++ r = quoteChars y ++ s → x = y ∧ r = s := by
  intro x y r s h
  unfold quoteChars at h
  simp only [List.cons_append, List.append_assoc, List.singleton_append] at h
  injection h with h1 h2
  exact flatMapEsc_unamb x y r s h2

/-- The head characters a serialized value can start with, by
constructor. -/
def headOk : JVal → Char → Prop
  | .undef, c => c = 'n'
  | .null, c => c = 'n'
  | .bool b, c => c = (if b then 't' else 'f')
  | .num _, c => c = '-' ∨ isDigitChar c = true
  | .str _, c => c = '"'
  | .arr _, c => c = '['
  | .obj _, c => c = '\x7b'

/-- Every serialized value is nonempty, with a constructor-determined
head character. -/
theorem serJson_head (v : JVal) : ∃ c t, serJson v = c :: t ∧ headOk v c := by
  cases v with
  | undef => exact ⟨'n', _, rfl, rfl⟩
  | null => exact ⟨'n', _, rfl, rfl⟩
  | bool b =>
      cases b with
      | false => exact ⟨'f', _, rfl, rfl⟩
      | true => exact ⟨'t', _, rfl, rfl⟩
  | num n =>
      show ∃ c t, numRepr n = c :: t ∧ _
      unfold numRepr
      by_cases hn : n < 0
      · rw [if_pos hn]
        exact ⟨'-', _, rfl, Or.inl rfl⟩
      · rw [if_neg hn]
        rcases hA : natDigitChars n.toNat with _ | ⟨c, A⟩
        · exact absurd hA (natDigitChars_ne_nil _)
        · refine ⟨c, A, rfl, Or.inr ?_⟩
          have hall := natDigitChars_all_digits n.toNat
          rw [hA, List.all_cons, Bool.and_eq_true] at hall
          exact hall.1
  | str s => exact ⟨'"', _, rfl, rfl⟩
  | arr xs => exact ⟨'[', _, rfl, rfl⟩
  | obj kvs => exact ⟨'\x7b', _, rfl, rfl⟩

/-- A numeric tag per constructor, used to discriminate serialized
values by their head character. -/
def ctorTag : JVal → Nat
  | .undef => 6
  | .null => 0
  | .bool _ => 1
  | .num _ => 2
  | .str _ => 3
  | .arr _ => 4
  | .obj _ => 5

/-- The tag a head character can belong to. -/
def charTag (c : Char) : Nat :=
  if c = 'n' then 0
  else if c = 't' ∨ c = 'f' then 1
  else if c = '-' ∨ isDigitChar c = true then 2
  else if c = '"' then 3
  else if c = '[' then 4
  else if c = '\x7b' then 5
  else 7

/-- For pure values the head character determines the constructor. -/
theorem headOk_charTag : ∀ (v : JVal) (c : Char), pureJson v = true → headOk v c →
    charTag c = ctorTag v := by
  intro v c hp ho
  cases v with
  | undef => simp [pureJson] at hp
  | null =>
      rw [show headOk .null c = (c = 'n') from rfl] at ho
      subst ho
      rfl
  | bool b =>
      cases b with
      | false =>
          rw [show headOk (.bool false) c = (c = 'f') from rfl] at ho
          subst ho
          rfl
      | true =>
          rw [show headOk (.bool true) c = (c = 't') from rfl] at ho
          subst ho
          rfl
  | num n =>
      rcases ho with h | h
      · subst h
        rfl
      · unfold charTag
        have hn : ¬(c = 'n') := by
          intro hc
          subst hc
          exact absurd h (by decide)
        have ht : ¬(c = 't' ∨ c = 'f') := by
          rintro (hc | hc) <;> (subst hc; exact absurd h (by decide))
        rw [if_neg hn, if_neg ht, if_pos (Or.inr h)]
        rfl
  | str s =>
      rw [show headOk (.str s) c = (c = '"') from rfl] at ho
      subst ho
      rfl
  | arr xs =>
      rw [show headOk (.arr xs) c = (c = '[') from rfl] at ho
      subst ho
      rfl
  | obj kvs =>
      rw [show headOk (.obj kvs) c = (c = '\x7b') from rfl] at ho
      subst ho
      rfl

/-- `joinComma` of a cons: the first piece, then a comma-separated
tail when one exists. -/
theorem joinComma_cons (A : List Char) (L : List (List Char)) :
    joinComma (A :: L) = A ++ (if L = [] then [] else ',' :: joinComma L) := by
  cases L with
  | nil => simp [joinComma]
  | cons B L => simp [joinComma]

/-- `serItems` is empty exactly on the empty list. -/
theorem serItems_eq_nil_iff (xs : List JVal) : serItems xs = [] ↔ xs = [] := by
  cases xs with
  | nil => simp [serItems]
  | cons x xs => simp [serItems]

/-- Membership facts for `pureJson`'s list helper. -/
theorem pureList_cons {x : JVal} {xs : List JVal}
    (h : pureJson.pureList (x :: xs) = true) :
    pureJson x = true ∧ pureJson.pureList xs = true := by
  rw [show pureJson.pureList (x :: xs) = (pureJson x && pureJson.pureList xs) from rfl,
    Bool.and_eq_true] at h
  exact h

/-- Membership facts for `pureJson`'s field helper. -/
theorem pureFields_cons {kv : String × JVal} {kvs : List (String × JVal)}
    (h : pureJson.pureFields (kv :: kvs) = true) :
    pureJson kv.2 = true ∧ pureJson.pureFields kvs = true := by
  rw [show pureJson.pureFields (kv :: kvs) = (pureJson kv.2 && pureJson.pureFields kvs) from
    rfl, Bool.and_eq_true] at h
  exact h

/-- A pure value is never `undefined`. -/
theorem pure_ne_undef {v : JVal} (h : pureJson v = true) : v ≠ .undef := by
  intro hc
  subst hc
  simp [pureJson] at h

/-- A serialized value never begins with a closing delimiter: the
contradiction used when one side of a sequence comparison has run out
of elements. -/
theorem serJson_head_not_delim (y : JVal) (hp : pureJson y = true) {c : Char} {t : List Char}
    (he : serJson y = c :: t) (hd : c = ']' ∨ c = ',' ∨ c = '\x7d') : False := by
  obtain ⟨cy, ty, hey, hoy⟩ := serJson_head y
  rw [hey] at he
  injection he with h1 h2
  have := headOk_charTag y cy hp hoy
  rw [h1] at this
  rcases hd with h | h | h <;>
    (subst h; cases y <;> (simp only [ctorTag] at this; exact absurd this (by decide)))

/-- Strings with equal character data are equal. -/
theorem string_data_inj {a b : String} (h : a.data = b.data) : a = b := by
  cases a
  cases b
  simp_all

/-- Unambiguity of comma-joined serialized sequences closed by `]`,
given unambiguity of the elements. -/
theorem serItems_unamb :
    ∀ (xs : List JVal)
      (IH : ∀ x, x ∈ xs → ∀ (b : JVal) (r s : List Char),
        pureJson x = true → pureJson b = true → isDelim r → isDelim s →
        serJson x ++ r = serJson b ++ s → x = b ∧ r = s)
      (ys : List JVal) (r s : List Char),
      pureJson.pureList xs = true → pureJson.pureList ys = true →
      joinComma (serItems xs) ++ ']' :: r = joinComma (serItems ys) ++ ']' :: s →
      xs = ys ∧ r = s := by
  intro xs
  induction xs with
  | nil =>
      intro IH ys r s hpx hpy h
      cases ys with
      | nil =>
          simp only [serItems, joinComma, List.nil_append] at h
          injection h with h1 h2
          exact ⟨rfl, h2⟩
      | cons y ys =>
          exfalso
          simp only [serItems, joinComma_cons, joinComma, List.nil_append] at h
          rw [List.append_assoc] at h
          obtain ⟨cy, ty, hey, _⟩ := serJson_head y
          rw [hey, List.cons_append] at h
          injection h with h1 h2
          exact serJson_head_not_delim y (pureList_cons hpy).1 hey (Or.inl h1.symm)
  | cons x xs ihl =>
      intro IH ys r s hpx hpy h
      obtain ⟨hpx1, hpxs⟩ := pureList_cons hpx
      cases ys with
      | nil =>
          exfalso
          simp only [serItems, joinComma_cons, joinComma, List.nil_append] at h
          rw [List.append_assoc] at h
          obtain ⟨cx, tx, hex, _⟩ := serJson_head x
          rw [hex, List.cons_append] at h
          injection h with h1 h2
          exact serJson_head_not_delim x hpx1 hex (Or.inl h1)
      | cons y ys =>
          obtain ⟨hpy1, hpys⟩ := pureList_cons hpy
          simp only [serItems, joinComma_cons] at h
          rw [List.append_assoc, List.append_assoc] at h
          have hdx : isDelim ((if serItems xs = [] then [] else ',' :: joinComma (serItems xs)) ++
              ']' :: r) := by
            split
            · simp only [List.nil_append]
              exact Or.inr (Or.inl rfl)
            · exact Or.inl rfl
          have hdy : isDelim ((if serItems ys = [] then [] else ',' :: joinComma (serItems ys)) ++
              ']' :: s) := by
            split
            · simp only [List.nil_append]
              exact Or.inr (Or.inl rfl)
            · exact Or.inl rfl
          obtain ⟨hxy, hT⟩ := IH x (List.mem_cons_self _ _) y _ _ hpx1 hpy1 hdx hdy h
          subst hxy
          by_cases hxs : serItems xs = [] <;> by_cases hys : serItems ys = []
          · rw [if_pos hxs, if_pos hys, List.nil_append, List.nil_append] at hT
            injection hT with h1 h2
            rw [serItems_eq_nil_iff] at hxs hys
            subst hxs
            subst hys
            exact ⟨rfl, h2⟩
          · exfalso
            rw [if_pos hxs, if_neg hys, List.nil_append, List.cons_append] at hT
            injection hT with h1 h2
            exact absurd h1 (by decide)
          · exfalso
            rw [if_neg hxs, if_pos hys, List.cons_append, List.nil_append] at hT
            injection hT with h1 h2
            exact absurd h1 (by decide)
          · rw [if_neg hxs, if_neg hys, List.cons_append, List.cons_append] at hT
            injection hT with h1 h2
            obtain ⟨hl, hrs⟩ := ihl (fun z hz => IH z (List.mem_cons_of_mem _ hz)) ys r s
              hpxs hpys h2
            exact ⟨by rw [hl], hrs⟩

/-- Under pureness (no `undefined` values), `serFields` is empty
exactly on the empty field list. -/
theorem serFields_eq_nil_iff_of_pure :
    ∀ (kvs : List (String × JVal)), pureJson.pureFields kvs = true →
      (serFields kvs = [] ↔ kvs = []) := by
  intro kvs hp
  cases kvs with
  | nil => simp [serFields]
  | cons kv kvs =>
      obtain ⟨k, v⟩ := kv
      have hv := pure_ne_undef (pureFields_cons hp).1
      simp [serFields, hv]

/-- Unambiguity of comma-joined serialized object members closed by a
right brace, given unambiguity of the member values. -/
theorem serFields_unamb :
    ∀ (xs : List (String × JVal))
      (IH : ∀ kv : String × JVal, kv ∈ xs → ∀ (b : JVal) (r s : List Char),
        pureJson kv.2 = true → pureJson b = true → isDelim r → isDelim s →
        serJson kv.2 ++ r = serJson b ++ s → kv.2 = b ∧ r = s)
      (ys : List (String × JVal)) (r s : List Char),
      pureJson.pureFields xs = true → pureJson.pureFields ys = true →
      joinComma (serFields xs) ++ '\x7d' :: r = joinComma (serFields ys) ++ '\x7d' :: s →
      xs = ys ∧ r = s := by
  intro xs
  induction xs with
  | nil =>
      intro IH ys r s hpx hpy h
      cases ys with
      | nil =>
          simp only [serFields, joinComma, List.nil_append] at h
          injection h with h1 h2
          exact ⟨rfl, h2⟩
      | cons kv ys =>
          exfalso
          obtain ⟨ky, vy⟩ := kv
          have hvy := pure_ne_undef (pureFields_cons hpy).1
          rw [show serFields ((ky, vy) :: ys)
              = (quoteChars ky.data ++ ':' :: serJson vy) :: serFields ys from by
            simp [serFields, hvy]] at h
          rw [joinComma_cons] at h
          simp only [serFields, joinComma, List.nil_append, quoteChars,
            List.cons_append, List.append_assoc] at h
          injection h with h1 h2
          exact absurd h1 (by decide)
  | cons kv xs ihl =>
      intro IH ys r s hpx hpy h
      obtain ⟨kx, vx⟩ := kv
      have hpx1 := (pureFields_cons hpx).1
      have hpxs := (pureFields_cons hpx).2
      have hvx := pure_ne_undef hpx1
      rw [show serFields ((kx, vx) :: xs)
          = (quoteChars kx.data ++ ':' :: serJson vx) :: serFields xs from by
        simp [serFields, hvx]] at h
      cases ys with
      | nil =>
          exfalso
          rw [joinComma_cons] at h
          simp only [serFields, joinComma, List.nil_append, quoteChars,
            List.cons_append, List.append_assoc] at h
          injection h with h1 h2
          exact absurd h1 (by decide)
      | cons kv2 ys =>
          obtain ⟨ky, vy⟩ := kv2
          have hpy1 := (pureFields_cons hpy).1
          have hpys := (pureFields_cons hpy).2
          have hvy := pure_ne_undef hpy1
          rw [show serFields ((ky, vy) :: ys)
              = (quoteChars ky.data ++ ':' :: serJson vy) :: serFields ys from by
            simp [serFields, hvy]] at h
          rw [joinComma_cons, joinComma_cons] at h
          rw [List.append_assoc, List.append_assoc, List.append_assoc,
            List.append_assoc] at h
          simp only [List.cons_append] at h
          obtain ⟨hk, hrest⟩ := quoteChars_unamb _ _ _ _ h
          injection hrest with h1 h2
          have hdx : isDelim ((if serFields xs = [] then [] else ',' :: joinComma (serFields xs))
              ++ '\x7d' :: r) := by
            split
            · simp only [List.nil_append]
              exact Or.inr (Or.inr rfl)
            · exact Or.inl rfl
          have hdy : isDelim ((if serFields ys = [] then [] else ',' :: joinComma (serFields ys))
              ++ '\x7d' :: s) := by
            split
            · simp only [List.nil_append]
              exact Or.inr (Or.inr rfl)
            · exact Or.inl rfl
          obtain ⟨hv, hT⟩ := IH (kx, vx) (List.mem_cons_self _ _) vy _ _ hpx1 hpy1 hdx hdy h2
          by_cases hxs : serFields xs = [] <;> by_cases hys : serFields ys = []
          · rw [if_pos hxs, if_pos hys, List.nil_append, List.nil_append] at hT
            injection hT with hT1 hT2
            rw [serFields_eq_nil_iff_of_pure xs hpxs] at hxs
            rw [serFields_eq_nil_iff_of_pure ys hpys] at hys
            subst hxs
            subst hys
            exact ⟨by rw [string_data_inj hk, show vx = vy from hv], hT2⟩
          · exfalso
            rw [if_pos hxs, if_neg hys, List.nil_append, List.cons_append] at hT
            injection hT with hT1 hT2
            exact absurd hT1 (by decide)
          · exfalso
            rw [if_neg hxs, if_pos hys, List.cons_append, List.nil_append] at hT
            injection hT with hT1 hT2
            exact absurd hT1 (by decide)
          · rw [if_neg hxs, if_neg hys, List.cons_append, List.cons_append] at hT
            injection hT with hT1 hT2
            obtain ⟨hl, hrs⟩ := ihl (fun z hz => IH z (List.mem_cons_of_mem _ hz)) ys r s
              hpxs hpys hT2
            exact ⟨by rw [string_data_inj hk, show vx = vy from hv, hl], hrs⟩

/-- Unambiguity of the `JSON.stringify` text: two pure values whose
serializations, each followed by end-of-input or a JSON delimiter,
produce the same character stream are the same value (and the rests
coincide). Strong induction on the value size. -/
theorem serJson_unamb :
    ∀ (N : Nat) (a b : JVal) (r s : List Char), sizeOf a ≤ N →
      pureJson a = true → pureJson b = true → isDelim r → isDelim s →
      serJson a ++ r = serJson b ++ s → a = b ∧ r = s := by
  intro N
  induction N using Nat.strong_induction_on with
  | _ N ihN =>
    intro a b r s hsz hpa hpb hdr hds h
    have htag : ctorTag a = ctorTag b := by
      obtain ⟨ca, ta, hea, hoa⟩ := serJson_head a
      obtain ⟨cb, tb, heb, hob⟩ := serJson_head b
      have hh := h
      rw [hea, heb, List.cons_append, List.cons_append] at hh
      injection hh with h1 _
      rw [← headOk_charTag a ca hpa hoa, ← headOk_charTag b cb hpb hob, h1]
    cases a with
    | undef => exact absurd hpa (by simp [pureJson])
    | null =>
        cases b with
        | undef => exact absurd hpb (by simp [pureJson])
        | null =>
            refine ⟨rfl, ?_⟩
            simpa [serJson] using h
        | bool c => simp only [ctorTag] at htag; exact absurd htag (by decide)
        | num m => simp only [ctorTag] at htag; exact absurd htag (by decide)
        | str t => simp only [ctorTag] at htag; exact absurd htag (by decide)
        | arr ys => simp only [ctorTag] at htag; exact absurd htag (by decide)
        | obj ls => simp only [ctorTag] at htag; exact absurd htag (by decide)
    | bool bv =>
        cases b with
        | undef => exact absurd hpb (by simp [pureJson])
        | null => simp only [ctorTag] at htag; exact absurd htag (by decide)
        | bool c =>
            cases bv <;> cases c
            · exact ⟨rfl, by simpa [serJson] using h⟩
            · exact absurd h (by simp [serJson])
            · exact absurd h (by simp [serJson])
            · exact ⟨rfl, by simpa [serJson] using h⟩
        | num m => simp only [ctorTag] at htag; exact absurd htag (by decide)
        | str t => simp only [ctorTag] at htag; exact absurd htag (by decide)
        | arr ys => simp only [ctorTag] at htag; exact absurd htag (by decide)
        | obj ls => simp only [ctorTag] at htag; exact absurd htag (by decide)
    | num n =>
        cases b with
        | undef => exact absurd hpb (by simp [pureJson])
        | null => simp only [ctorTag] at htag; exact absurd htag (by decide)
        | bool c => simp only [ctorTag] at htag; exact absurd htag (by decide)
        | num m =>
            obtain ⟨hnm, hrs⟩ := numRepr_unamb n m r s hdr hds h
            exact ⟨by rw [hnm], hrs⟩
        | str t => simp only [ctorTag] at htag; exact absurd htag (by decide)
        | arr ys => simp only [ctorTag] at htag; exact absurd htag (by decide)
        | obj ls => simp only [ctorTag] at htag; exact absurd htag (by decide)
    | str sv =>
        cases b with
        | undef => exact absurd hpb (by simp [pureJson])
        | null => simp only [ctorTag] at htag; exact absurd htag (by decide)
        | bool c => simp only [ctorTag] at htag; exact absurd htag (by decide)
        | num m => simp only [ctorTag] at htag; exact absurd htag (by decide)
        | str t =>
            obtain ⟨hst, hrs⟩ := quoteChars_unamb sv.data t.data r s h
            exact ⟨by rw [string_data_inj hst], hrs⟩
        | arr ys => simp only [ctorTag] at htag; exact absurd htag (by decide)
        | obj ls => simp only [ctorTag] at htag; exact absurd htag (by decide)
    | arr xs =>
        cases b with
        | undef => exact absurd hpb (by simp [pureJson])
        | null => simp only [ctorTag] at htag; exact absurd htag (by decide)
        | bool c => simp only [ctorTag] at htag; exact absurd htag (by decide)
        | num m => simp only [ctorTag] at htag; exact absurd htag (by decide)
        | str t => simp only [ctorTag] at htag; exact absurd htag (by decide)
        | arr ys =>
            simp only [serJson, List.cons_append, List.append_assoc,
              List.singleton_append] at h
            injection h with h1 h2
            have hIH : ∀ x, x ∈ xs → ∀ (b : JVal) (r s : List Char),
                pureJson x = true → pureJson b = true → isDelim r → isDelim s →
                serJson x ++ r = serJson b ++ s → x = b ∧ r = s := by
              intro x hmem b2 r2 s2 hp1 hp2 hd1 hd2 heq
              have hxN : sizeOf x < N := by
                have h1 : sizeOf x < sizeOf xs := List.sizeOf_lt_of_mem hmem
                have h2 : sizeOf xs < sizeOf (JVal.arr xs) := by simp
                omega
              exact ihN (sizeOf x) hxN x b2 r2 s2 (le_refl _) hp1 hp2 hd1 hd2 heq
            obtain ⟨hl, hrs⟩ := serItems_unamb xs hIH ys r s hpa hpb h2
            exact ⟨by rw [hl], hrs⟩
        | obj ls => simp only [ctorTag] at htag; exact absurd htag (by decide)
    | obj kvs =>
        cases b with
        | undef => exact absurd hpb (by simp [pureJson])
        | null => simp only [ctorTag] at htag; exact absurd htag (by decide)
        | bool c => simp only [ctorTag] at htag; exact absurd htag (by decide)
        | num m => simp only [ctorTag] at htag; exact absurd htag (by decide)
        | str t => simp only [ctorTag] at htag; exact absurd htag (by decide)
        | arr ys => simp only [ctorTag] at htag; exact absurd htag (by decide)
        | obj ls =>
            simp only [serJson, List.cons_append, List.append_assoc,
              List.singleton_append] at h
            injection h with h1 h2
            have hIH : ∀ kv : String × JVal, kv ∈ kvs → ∀ (b : JVal) (r s : List Char),
                pureJson kv.2 = true → pureJson b = true → isDelim r → isDelim s →
                serJson kv.2 ++ r = serJson b ++ s → kv.2 = b ∧ r = s := by
              intro kv hmem b2 r2 s2 hp1 hp2 hd1 hd2 heq
              have hxN : sizeOf kv.2 < N := by
                have h1 : sizeOf kv < sizeOf kvs := List.sizeOf_lt_of_mem hmem
                have h2 : sizeOf kvs < sizeOf (JVal.obj kvs) := by simp
                have h3 : sizeOf kv.2 < sizeOf kv := by
                  obtain ⟨k, v⟩ := kv
                  simp
                omega
              exact ihN (sizeOf kv.2) hxN kv.2 b2 r2 s2 (le_refl _) hp1 hp2 hd1 hd2 heq
            obtain ⟨hl, hrs⟩ := serFields_unamb kvs hIH ls r s hpa hpb h2
            exact ⟨by rw [hl], hrs⟩

/-- For a pure (JSON-serializable, no `undefined`) value,
`JSON.stringify` produces the serialized text. -/
theorem jsonStringify_pure {v : JVal} (h : pureJson v = true) :
    jsonStringify v = some (String.mk (serJson v)) := by
  cases v with
  | undef => exact absurd h (by simp [pureJson])
  | null => rfl
  | bool b => rfl
  | num n => rfl
  | str s => rfl
  | arr xs => rfl
  | obj kvs => rfl

/-- `JSON.stringify` is injective on pure values: equal texts mean
equal values (object key order included). -/
theorem jsonStringify_inj {a b : JVal} (ha : pureJson a = true) (hb : pureJson b = true)
    (h : jsonStringify a = jsonStringify b) : a = b := by
  rw [jsonStringify_pure ha, jsonStringify_pure hb] at h
  injection h with h1
  have h2 : serJson a = serJson b := by injection h1
  have h3 : serJson a ++ ([] : List Char) = serJson b ++ [] := by rw [h2]
  exact (serJson_unamb (sizeOf a) a b [] [] (le_refl _) ha hb trivial trivial h3).1

/-- The Boolean the `equals` branch computes coincides with structural
equality on pure values. -/
theorem stringifyEq_eq_decide {a b : JVal} (ha : pureJson a = true)
    (hb : pureJson b = true) :
    (jsonStringify a == jsonStringify b) = decide (a = b) := by
  by_cases heq : a = b
  · subst heq
    simp
  · have hne : jsonStringify a ≠ jsonStringify b := fun hc => heq (jsonStringify_inj ha hb hc)
    simp [heq, hne]

/-- C2 (counterexample). The objects `{"a":1,"b":2}` and
`{"b":2,"a":1}` are deeply structurally equal in the canonical-JSON
sense — their field lists are permutations of one another — yet the
`equals` operator fails on them: `JSON.stringify` comparison is
sensitive to object key order. -/
theorem C2_counterexample :
    List.Perm [(("a" : String), JVal.num 1), ("b", JVal.num 2)]
        [("b", JVal.num 2), ("a", JVal.num 1)] ∧
    resultSuccess? (evaluateAssertion parenSem
      ⟨"data", .equals, JVal.obj [("b", JVal.num 2), ("a", JVal.num 1)], none⟩
      (JVal.obj [("a", JVal.num 1), ("b", JVal.num 2)])) = some false :=
  ⟨List.Perm.swap _ _ _, by decide⟩

/-- C2 (corrected). For every pair of pure (JSON-serializable,
`undefined`-free) values, the `equals` operator of `evaluateAssertion`
succeeds exactly when actual and expected are structurally identical —
equality that is *sensitive* to object key order, since it compares
`JSON.stringify` texts — and the `notEquals` operator succeeds exactly
when `equals` fails on the same pair. -/
theorem C2_equals_structural (p : String) (msg : Option String) (actual expected : JVal)
    (ha : pureJson actual = true) (hb : pureJson expected = true) :
    resultSuccess? (evaluateAssertion parenSem ⟨p, .equals, expected, msg⟩ actual)
      = some (decide (actual = expected)) ∧
    resultSuccess? (evaluateAssertion parenSem ⟨p, .notEquals, expected, msg⟩ actual)
      = some (!decide (actual = expected)) := by
  constructor
  · show some (jsonStringify actual == jsonStringify expected) = _
    rw [stringifyEq_eq_decide ha hb]
  · show some (!(jsonStringify actual == jsonStringify expected)) = _
    rw [stringifyEq_eq_decide ha hb]

/-- Witness for C2 at concrete inputs: on `3` versus `"x"` the `equals`
operator reports `false` and `notEquals` reports `true`. -/
theorem C2_witness :
    pureJson (JVal.num 3) = true ∧ pureJson (JVal.str "x") = true ∧
    (resultSuccess? (evaluateAssertion parenSem
        ⟨"p", .equals, JVal.str "x", none⟩ (JVal.num 3))
      = some (decide (JVal.num 3 = JVal.str "x")) ∧
    resultSuccess? (evaluateAssertion parenSem
        ⟨"p", .notEquals, JVal.str "x", none⟩ (JVal.num 3))
      = some (!decide (JVal.num 3 = JVal.str "x"))) :=
  ⟨by decide, by decide,
    C2_equals_structural "p" none (JVal.num 3) (JVal.str "x") (by decide) (by decide)⟩

-- -- Token grammar of the interpolation regex, and re-matching --

/-- A greedy run of `p`-characters followed by a non-`p` rest splits a
`takeWhile`/`dropWhile` pair exactly. -/
theorem takeWhile_run_append {p : Char → Bool} :
    ∀ (w r : List Char), w.all p = true → headNotP p r →
      (w ++ r).takeWhile p = w ∧ (w ++ r).dropWhile p = r := by
  intro w
  induction w with
  | nil =>
      intro r _ hr
      cases r with
      | nil => exact ⟨rfl, rfl⟩
      | cons c r1 =>
          simp only [headNotP] at hr
          simp [List.takeWhile_cons, List.dropWhile_cons, hr]
  | cons a w ih =>
      intro r hw hr
      rw [List.all_cons, Bool.and_eq_true] at hw
      obtain ⟨h1, h2⟩ := ih r hw.2 hr
      simp [List.takeWhile_cons, List.dropWhile_cons, hw.1, h1, h2]

/-- Re-matching the optional index group on its own text: a bracketed
nonempty digit run followed by anything matches itself. -/
theorem matchIdx_rematch {ds : List Char} (hne : ds ≠ []) (hall : ds.all isDigitChar = true)
    (r : List Char) :
    matchIdx ('[' :: ds ++ ']' :: r) = some ('[' :: ds ++ [']'], r) := by
  have hr : headNotP isDigitChar (']' :: r) := by
    show isDigitChar ']' = false
    decide
  obtain ⟨ht, hd⟩ := takeWhile_run_append ds (']' :: r) hall hr
  have hstep : matchIdx ('[' :: ds ++ ']' :: r)
      = if List.takeWhile isDigitChar (ds ++ ']' :: r) = [] then none
        else match List.dropWhile isDigitChar (ds ++ ']' :: r) with
          | ']' :: r1 => some ('[' :: List.takeWhile isDigitChar (ds ++ ']' :: r) ++ [']'], r1)
          | _ => none := rfl
  rw [hstep, ht, hd, if_neg hne]
  rfl

/-- The optional-index slot of a token: absent, or a bracketed nonempty
digit run. -/
def IdxOpt (ix : List Char) : Prop :=
  ix = [] ∨ ∃ ds, ds ≠ [] ∧ ds.all isDigitChar = true ∧ ix = '[' :: ds ++ [']']

/-- The text shapes the greedy star `(?:\.\w+(?:\[\d+\])?)*` can emit:
a sequence of groups, each a dot, a nonempty identifier run and an
optional index. -/
inductive SegsShape : List Char → Prop
  | nil : SegsShape []
  | seg (w ix t : List Char) : w ≠ [] → w.all isWordChar = true → IdxOpt ix →
      SegsShape t → SegsShape ('.' :: w ++ ix ++ t)

/-- A star match is empty or begins with a dot. -/
theorem segsShape_head {t : List Char} (h : SegsShape t) :
    t = [] ∨ ∃ u, t = '.' :: u := by
  cases h with
  | nil => exact Or.inl rfl
  | seg w ix t' hw hall hix hs => exact Or.inr ⟨_, rfl⟩

/-- What follows an identifier run inside a token — the index bracket,
the next dot group, or the closing brace — is never a word character. -/
theorem idx_segs_head_notword (ix t X : List Char) (hix : IdxOpt ix) (ht : SegsShape t) :
    headNotP isWordChar (ix ++ (t ++ '\x7d' :: X)) := by
  rcases hix with h | ⟨ds, hdne, hdall, h⟩
  · subst h
    rw [List.nil_append]
    rcases segsShape_head ht with h2 | ⟨u, h2⟩
    · subst h2
      rw [List.nil_append]
      show isWordChar '\x7d' = false
      decide
    · rw [h2]
      show isWordChar '.' = false
      decide
  · subst h
    show isWordChar '[' = false
    decide

/-- The greedy star re-matches its own output: star text followed by
the closing brace and anything splits exactly as before. -/
theorem matchSegsGo_rematch :
    ∀ (t : List Char), SegsShape t → ∀ (X : List Char) (fuel : Nat),
      (t ++ '\x7d' :: X).length ≤ fuel →
      matchSegsGo fuel (t ++ '\x7d' :: X) = (t, '\x7d' :: X) := by
  intro t ht
  induction ht with
  | nil =>
      intro X fuel hf
      simp only [List.nil_append] at hf ⊢
      cases fuel with
      | zero => simp at hf
      | succ f =>
          simp only [matchSegsGo]
          rw [if_neg (by decide : ¬('\x7d' = '.'))]
  | seg w ix t' hw hall hix hts ih =>
      intro X fuel hf
      cases fuel with
      | zero => simp at hf
      | succ f =>
          have hwpos : 0 < w.length := List.length_pos.mpr hw
          have hrest : ('.' :: w ++ ix ++ t') ++ '\x7d' :: X
              = '.' :: (w ++ (ix ++ (t' ++ '\x7d' :: X))) := by
            simp [List.append_assoc]
          rw [hrest]
          simp only [matchSegsGo]
          rw [if_pos trivial]
          have hnw : headNotP isWordChar (ix ++ (t' ++ '\x7d' :: X)) :=
            idx_segs_head_notword ix t' X hix hts
          obtain ⟨htk, hdp⟩ := takeWhile_run_append w (ix ++ (t' ++ '\x7d' :: X)) hall hnw
          rw [htk, hdp, if_neg hw]
          have hlen : (t' ++ '\x7d' :: X).length ≤ f := by
            rw [hrest] at hf
            simp only [List.length_cons, List.length_append] at hf ⊢
            omega
          rcases hix with hnil | ⟨ds, hdne, hdall, hdix⟩
          · subst hnil
            simp only [List.nil_append]
            have hmi : matchIdx (t' ++ '\x7d' :: X) = none := by
              rcases segsShape_head hts with h2 | ⟨u, h2⟩
              · subst h2
                rfl
              · rw [h2]
                rfl
            rw [hmi]
            dsimp only
            rw [ih X f hlen]
            simp
          · subst hdix
            rw [show ('[' :: ds ++ [']']) ++ (t' ++ '\x7d' :: X)
                = '[' :: ds ++ ']' :: (t' ++ '\x7d' :: X) from by simp]
            rw [matchIdx_rematch hdne hdall]
            dsimp only
            rw [ih X f hlen]

/-- Canonical-fuel form of `matchSegsGo_rematch`. -/
theorem matchSegs_rematch {t : List Char} (ht : SegsShape t) (X : List Char) :
    matchSegs (t ++ '\x7d' :: X) = (t, '\x7d' :: X) :=
  matchSegsGo_rematch t ht X _ (le_refl _)

/-- The capture shapes `matchBrace` can emit: a nonempty identifier
run, an optional index and a star of dot groups. -/
def BraceShape (p : List Char) : Prop :=
  ∃ w ix t, w ≠ [] ∧ w.all isWordChar = true ∧ IdxOpt ix ∧ SegsShape t ∧ p = w ++ ix ++ t

/-- Every star match has the star shape. -/
theorem matchSegsGo_shape :
    ∀ (fuel : Nat) (cs : List Char), SegsShape (matchSegsGo fuel cs).1 := by
  intro fuel
  induction fuel with
  | zero => intro cs; exact SegsShape.nil
  | succ f ih =>
      intro cs
      match cs with
      | [] => exact SegsShape.nil
      | c :: cs1 =>
          simp only [matchSegsGo]
          by_cases hc : c = '.'
          · rw [if_pos hc]
            by_cases hwt : cs1.takeWhile isWordChar = []
            · rw [if_pos hwt]
              exact SegsShape.nil
            · rw [if_neg hwt]
              rcases hmi : matchIdx (cs1.dropWhile isWordChar) with _ | ⟨ix, r1⟩
              · dsimp only
                rcases hms : matchSegsGo f (cs1.dropWhile isWordChar) with ⟨t, r2⟩
                dsimp only
                have hsh := ih (cs1.dropWhile isWordChar)
                rw [hms] at hsh
                subst hc
                rw [show ('.' :: cs1.takeWhile isWordChar ++ t)
                    = '.' :: cs1.takeWhile isWordChar ++ [] ++ t from by simp]
                exact SegsShape.seg _ [] t hwt (List.all_takeWhile) (Or.inl rfl) hsh
              · dsimp only
                rcases hms : matchSegsGo f r1 with ⟨t, r2⟩
                dsimp only
                have hsh := ih r1
                rw [hms] at hsh
                obtain ⟨ds, hdne, hdall, hdix, _⟩ := matchIdx_parts hmi
                subst hc
                exact SegsShape.seg _ ix t hwt (List.all_takeWhile)
                  (Or.inr ⟨ds, hdne, hdall, hdix⟩) hsh
          · rw [if_neg hc]
            exact SegsShape.nil

/-- Every captured token path has the token shape. -/
theorem matchBrace_shape {cs p rest : List Char} (h : matchBrace cs = some (p, rest)) :
    BraceShape p := by
  match cs with
  | [] => simp [matchBrace] at h
  | c :: cs1 =>
    simp only [matchBrace] at h
    by_cases hc : c = '\x7b'
    · rw [if_pos hc] at h
      by_cases hw : cs1.takeWhile isWordChar = []
      · rw [if_pos hw] at h
        exact absurd h (by simp)
      · rw [if_neg hw] at h
        rcases hmi : matchIdx (cs1.dropWhile isWordChar) with _ | ⟨ix, r1⟩
        · rw [hmi] at h
          obtain ⟨hq, hr⟩ := expectClose_some h
          refine ⟨cs1.takeWhile isWordChar, [],
            (matchSegs (cs1.dropWhile isWordChar)).1,
            hw, List.all_takeWhile, Or.inl rfl, ?_, ?_⟩
          · exact matchSegsGo_shape _ _
          · rw [hq]
            simp
        · rw [hmi] at h
          obtain ⟨hq, hr⟩ := expectClose_some h
          obtain ⟨ds, hdne, hdall, hdix, _⟩ := matchIdx_parts hmi
          exact ⟨cs1.takeWhile isWordChar, ix, (matchSegs r1).1, hw, List.all_takeWhile,
            Or.inr ⟨ds, hdne, hdall, hdix⟩, matchSegsGo_shape _ _, hq⟩
    · rw [if_neg hc] at h
      exact absurd h (by simp)

/-- A token re-matches: `\x7b`, a shaped path, `\x7d` and anything
yields exactly that path and rest, whatever follows the brace. -/
theorem matchBrace_rematch {p : List Char} (hp : BraceShape p) (X : List Char) :
    matchBrace ('\x7b' :: p ++ '\x7d' :: X) = some (p, X) := by
  obtain ⟨w, ix, t, hwne, hwall, hix, hts, hpe⟩ := hp
  subst hpe
  rw [show ('\x7b' :: (w ++ ix ++ t)) ++ '\x7d' :: X
      = '\x7b' :: (w ++ (ix ++ (t ++ '\x7d' :: X))) from by simp]
  simp only [matchBrace]
  rw [if_pos trivial]
  have hnw : headNotP isWordChar (ix ++ (t ++ '\x7d' :: X)) :=
    idx_segs_head_notword ix t X hix hts
  obtain ⟨htk, hdp⟩ := takeWhile_run_append w (ix ++ (t ++ '\x7d' :: X)) hwall hnw
  rw [htk, hdp, if_neg hwne]
  rcases hix with hnil | ⟨ds, hdne, hdall, hdix⟩
  · subst hnil
    simp only [List.nil_append]
    have hmi : matchIdx (t ++ '\x7d' :: X) = none := by
      rcases segsShape_head hts with h2 | ⟨u, h2⟩
      · subst h2
        rfl
      · rw [h2]
        rfl
    rw [hmi]
    dsimp only
    rw [matchSegs_rematch hts X]
    simp [expectClose]
  · subst hdix
    rw [show ('[' :: ds ++ [']']) ++ (t ++ '\x7d' :: X)
        = '[' :: ds ++ ']' :: (t ++ '\x7d' :: X) from by simp]
    rw [matchIdx_rematch hdne hdall]
    dsimp only
    rw [matchSegs_rematch hts X]
    simp [expectClose, List.append_assoc]

/-- Text without a dollar sign passes through the replacement scan
unchanged, whatever the fuel. -/
theorem interpolateGo_dollarfree (vars : JVal) :
    ∀ (fuel : Nat) (cs : List Char), '$' ∉ cs → interpolateGo vars fuel cs = cs := by
  intro fuel
  induction fuel with
  | zero => intro cs _; rfl
  | succ f ih =>
      intro cs h
      match cs with
      | [] => rfl
      | c :: rest =>
          have hc : ¬(c = '$') := by
            intro hceq
            subst hceq
            exact h (List.mem_cons_self _ _)
          simp only [interpolateGo]
          rw [if_neg hc, ih rest (fun hm => h (List.mem_cons_of_mem _ hm))]

/-- One literal character steps through the scan. -/
theorem interpolateCore_cons_lit (vars : JVal) {c : Char} (hc : ¬(c = '$')) (cs : List Char) :
    interpolateCore vars (c :: cs) = c :: interpolateCore vars cs := by
  unfold interpolateCore
  simp only [List.length_cons, interpolateGo]
  rw [if_neg hc]

/-- One matched token steps through the scan: the replacer's output is
emitted and scanning resumes after the token — replacement text is not
rescanned. -/
theorem interpolateCore_cons_tok (vars : JVal) {rest p after : List Char}
    (hm : matchBrace rest = some (p, after)) :
    interpolateCore vars ('$' :: rest) = replacement vars p ++ interpolateCore vars after := by
  unfold interpolateCore
  simp only [List.length_cons, interpolateGo]
  rw [if_pos trivial, hm]
  dsimp only
  rw [interpolateGo_irrel vars rest.length after.length after
    (le_of_lt (matchBrace_length hm)) (le_refl _)]

/-- A dollar-free prefix is inert: it is copied verbatim and the scan
of the remainder is unaffected. -/
theorem interpolateCore_append_dollarfree (vars : JVal) :
    ∀ (A B : List Char), '$' ∉ A →
      interpolateCore vars (A ++ B) = A ++ interpolateCore vars B := by
  intro A
  induction A with
  | nil => intro B _; simp
  | cons c A ih =>
      intro B h
      have hc : ¬(c = '$') := by
        intro hceq
        subst hceq
        exact h (List.mem_cons_self _ _)
      rw [List.cons_append, interpolateCore_cons_lit vars hc,
        ih B (fun hm => h (List.mem_cons_of_mem _ hm))]
      rfl

/-- The replacer's output, as a conditional on resolvability. -/
theorem replacement_eq (vars : JVal) (p : List Char) :
    replacement vars p = (if extractValue vars (String.mk p) = .undef
      then '$' :: '\x7b' :: p ++ ['\x7d']
      else (valueText (extractValue vars (String.mk p))).data) := by
  unfold replacement
  rcases extractValue vars (String.mk p) with _ | _ | b | m | s | xs | kvs <;> simp

/-- Input whose every dollar sign begins a complete, well-shaped
`$\x7b`path`\x7d` token; the literal characters between tokens are
dollar-free. -/
inductive WellTok : List Char → Prop
  | nil : WellTok []
  | lit (c : Char) (cs : List Char) : ¬(c = '$') → WellTok cs → WellTok (c :: cs)
  | tok (p rest : List Char) : BraceShape p → WellTok rest →
      WellTok ('$' :: '\x7b' :: p ++ '\x7d' :: rest)

/-- Idempotence of the replacement scan on well-tokened input when no
resolved variable's substituted text contains a dollar sign. -/
theorem interpolateCore_idem (vars : JVal)
    (hv : ∀ p : List Char, extractValue vars (String.mk p) ≠ .undef →
      '$' ∉ (valueText (extractValue vars (String.mk p))).data) :
    ∀ (n : Nat) (cs : List Char), cs.length ≤ n → WellTok cs →
      interpolateCore vars (interpolateCore vars cs) = interpolateCore vars cs := by
  intro n
  induction n using Nat.strong_induction_on with
  | _ n ihN =>
    intro cs hlen hwt
    cases hwt with
    | nil => rfl
    | lit c cs' hc hwt' =>
        simp only [List.length_cons] at hlen
        rw [interpolateCore_cons_lit vars hc, interpolateCore_cons_lit vars hc,
          ihN cs'.length (by omega) cs' (le_refl _) hwt']
    | tok p rest hp hwt' =>
        have hm : matchBrace ('\x7b' :: p ++ '\x7d' :: rest) = some (p, rest) :=
          matchBrace_rematch hp rest
        have hrl : rest.length < n := by
          simp only [List.length_cons, List.length_append] at hlen
          omega
        have hrec : interpolateCore vars (interpolateCore vars rest)
            = interpolateCore vars rest :=
          ihN rest.length hrl rest (le_refl _) hwt'
        show interpolateCore vars (interpolateCore vars ('$' :: ('\x7b' :: p ++ '\x7d' :: rest)))
          = interpolateCore vars ('$' :: ('\x7b' :: p ++ '\x7d' :: rest))
        rw [interpolateCore_cons_tok vars hm, replacement_eq]
        by_cases hu : extractValue vars (String.mk p) = .undef
        · rw [if_pos hu]
          rw [show ('$' :: '\x7b' :: p ++ ['\x7d']) ++ interpolateCore vars rest
              = '$' :: ('\x7b' :: p ++ '\x7d' :: interpolateCore vars rest) from by simp]
          rw [interpolateCore_cons_tok vars (matchBrace_rematch hp _), hrec,
            replacement_eq, if_pos hu]
          simp
        · rw [if_neg hu]
          rw [interpolateCore_append_dollarfree vars _ _ (hv p hu), hrec]

/-- `split('.')` always yields at least one chunk. -/
theorem splitDots_ne_nil : ∀ (cs : List Char), splitDots cs ≠ [] := by
  intro cs
  induction cs with
  | nil => simp [splitDots]
  | cons c rest ih =>
      simp only [splitDots]
      by_cases hc : c = '.'
      · rw [if_pos hc]
        simp
      · rw [if_neg hc]
        rcases h : splitDots rest with _ | ⟨seg, segs⟩
        · simp
        · simp

/-- No property lives on the empty object. -/
theorem propGet_emptyObj (k : String) : propGet (JVal.obj []) k = .undef := rfl

/-- Walking any nonempty path into the empty object dead-ends. -/
theorem extractSteps_emptyObj (part : String) (rest : List String) :
    extractSteps (JVal.obj []) (part :: rest) = .undef := by
  simp only [extractSteps]
  rw [if_neg (by simp)]
  rcases h : parseArraySeg part with _ | ⟨name, idx⟩
  · dsimp only
    rw [propGet_emptyObj]
    exact extractSteps_undef rest
  · dsimp only
    rw [propGet_emptyObj]

/-- Against an empty variable bag every reference is unresolved. -/
theorem extractValue_emptyBag (q : String) : extractValue (JVal.obj []) q = .undef := by
  unfold extractValue
  rcases h : splitDots q.data with _ | ⟨seg, segs⟩
  · exact absurd h (splitDots_ne_nil _)
  · simp only [List.map_cons]
    exact extractSteps_emptyObj _ _

/-- C8 (counterexample). With variables `a = "m"` and `m = "Z"` — whose
values contain no dollar sign at all, hence no token — the input
`$\x7b$\x7ba\x7d\x7d` interpolates to `$\x7bm\x7d` (its inner token is
replaced, its outer `$\x7b`/`\x7d` pass through as literals), and a
second pass then yields `Z`: the once-interpolated text contains a
token the original did not, so interpolation is not idempotent even
though no variable value contains a token. -/
theorem C8_counterexample :
    ('$' ∉ "m".data ∧ '$' ∉ "Z".data) ∧
    interpolateStr "$\x7b$\x7ba\x7d\x7d"
        (JVal.obj [("a", JVal.str "m"), ("m", JVal.str "Z")]) = "$\x7bm\x7d" ∧
    interpolateStr (interpolateStr "$\x7b$\x7ba\x7d\x7d"
        (JVal.obj [("a", JVal.str "m"), ("m", JVal.str "Z")]))
        (JVal.obj [("a", JVal.str "m"), ("m", JVal.str "Z")]) = "Z" ∧
    ("Z" : String) ≠ "$\x7bm\x7d" := by
  refine ⟨⟨?_, ?_⟩, ?_, ?_, ?_⟩ <;> decide

/-- C8 (corrected). Interpolation is idempotent on well-tokened input:
if every dollar sign in `s` begins a complete `$\x7b`path`\x7d` token
and no resolvable path substitutes text containing a dollar sign, then
`interpolate(interpolate(s, vars), vars) = interpolate(s, vars)`.
(Restricting only the variable values, as the original claim does, is
not sufficient: a partial token in `s` can splice with replacement
output into a new token, as the counterexample shows.) -/
theorem C8_interpolate_idempotent (s : String) (vars : JVal)
    (hwt : WellTok s.data)
    (hv : ∀ p : List Char, extractValue vars (String.mk p) ≠ .undef →
      '$' ∉ (valueText (extractValue vars (String.mk p))).data) :
    interpolateStr (interpolateStr s vars) vars = interpolateStr s vars := by
  unfold interpolateStr
  have hdata : (String.mk (interpolateCore vars s.data)).data
      = interpolateCore vars s.data := rfl
  rw [hdata, interpolateCore_idem vars hv s.data.length s.data (le_refl _) hwt]

/-- Witness for C8: the unresolved token `$\x7ba\x7d` against an empty
variable bag reproduces itself, and a second interpolation changes
nothing. -/
theorem C8_witness :
    WellTok "$\x7ba\x7d".data ∧
    interpolateStr (interpolateStr "$\x7ba\x7d" (JVal.obj [])) (JVal.obj [])
      = interpolateStr "$\x7ba\x7d" (JVal.obj []) := by
  have hwt : WellTok "$\x7ba\x7d".data := by
    show WellTok ['$', '\x7b', 'a', '\x7d']
    exact WellTok.tok ['a'] []
      ⟨['a'], [], [], by decide, by decide, Or.inl rfl, SegsShape.nil, by decide⟩
      WellTok.nil
  have hv : ∀ p : List Char, extractValue (JVal.obj []) (String.mk p) ≠ .undef →
      '$' ∉ (valueText (extractValue (JVal.obj []) (String.mk p))).data := by
    intro p hne
    exact absurd (extractValue_emptyBag (String.mk p)) hne
  exact ⟨hwt, C8_interpolate_idempotent "$\x7ba\x7d" (JVal.obj []) hwt hv⟩

end Testflow
